import Mathlib

/-!
# Verification of the `simple-learning` drill engine (`src/lib/lib.go`)

This file gives a shallow embedding of the concurrent session code of the
repository: the question container (`QuestionsAnswers` with `AddEntry`,
`Concatenate`, `GetCount`), the command-line parser (`Parse`), the relay
(`fanOutChannel`), the publisher (`publishChanToWriter`) and the
orchestrator (`AskQuestions`).

Modelling conventions:
* Channels are modelled by event traces.  The orchestrator produces a
  `List Event` recording, in program order, every send on `qachan`
  (`Event.qaSend`), every send on `command` (`Event.cmdSend`), every timed
  sleep (`Event.sleep`) and every channel close (`Event.closeQA`,
  `Event.closeCmd`).
* The publisher consumes the stream of values it receives from the shared
  channel as a `List String` (the list ending models the channel being
  observed closed) and produces a `List OutEvent` of everything it writes
  to its output stream; `render` gives the exact text of each write.
* Go panics (index out of range, `%` by zero) are modelled by `Option`:
  a result of `none` means the Go code does not return normally.  The
  orchestrator's unbounded `for` loop is modelled with explicit fuel; with
  sufficient fuel the fuel branch is never taken (proved below).
* `rand.Int31n` draws are modelled by an oracle `pick : Nat → Nat` giving
  the value drawn at each iteration; Go guarantees the draw is `< count`,
  which becomes a hypothesis on the oracle.
* `time.Duration` is an integer number of nanoseconds, modelled as `Int`.
-/

/-- The paired question/answer sequences (`QuestionsAnswers` in `lib.go`). -/
structure QuestionsAnswers where
  questions : List String
  answers : List String
deriving Repr, DecidableEq

/-- `NewQA` builds an empty set of questions/answers. -/
def NewQA : QuestionsAnswers := { questions := [], answers := [] }

/-- `GetCount` returns the number of entries for the questions.  The Go code
returns `0` when the slice is `nil` and `len(qa.questions)` otherwise; since
`len(nil) = 0` in Go this is `qa.questions.length` in both cases. -/
def QuestionsAnswers.GetCount (qa : QuestionsAnswers) : Nat :=
  qa.questions.length

/-- `AddEntry` adds a question/answer pair to an existing set (Go `append`
on both slices). -/
def QuestionsAnswers.AddEntry (qa : QuestionsAnswers) (q a : String) : QuestionsAnswers :=
  { questions := qa.questions ++ [q], answers := qa.answers ++ [a] }

/-- One step of `Concatenate`: the Go loop body appends the entries of
`toAdd` only when `toAdd.GetCount() > 0`. -/
def concatenateStep (qa toAdd : QuestionsAnswers) : QuestionsAnswers :=
  if toAdd.GetCount > 0 then
    { questions := qa.questions ++ toAdd.questions,
      answers := qa.answers ++ toAdd.answers }
  else qa

/-- `Concatenate` adds the entries of the (variadic) parameter to an
existing QA set. -/
def QuestionsAnswers.Concatenate (qa : QuestionsAnswers) (qaToAdd : List QuestionsAnswers) : QuestionsAnswers :=
  qaToAdd.foldl concatenateStep qa

/-- Values of `QuestionsAnswers` reachable from `NewQA` by any sequence of
`AddEntry` and `Concatenate` calls. -/
inductive BuiltQA : QuestionsAnswers → Prop
  | new : BuiltQA NewQA
  | add (qa : QuestionsAnswers) (q a : String) :
      BuiltQA qa → BuiltQA (qa.AddEntry q a)
  | concat (qa : QuestionsAnswers) (ls : List QuestionsAnswers) :
      BuiltQA qa → (∀ x ∈ ls, BuiltQA x) → BuiltQA (qa.Concatenate ls)

/-- The balance invariant of a question set. -/
def QuestionsAnswers.Balanced (qa : QuestionsAnswers) : Prop :=
  qa.questions.length = qa.answers.length

instance (qa : QuestionsAnswers) : Decidable qa.Balanced := by
  unfold QuestionsAnswers.Balanced
  infer_instance

theorem concatenateStep_balanced (qa toAdd : QuestionsAnswers)
    (h1 : qa.Balanced) (h2 : toAdd.Balanced) :
    (concatenateStep qa toAdd).Balanced := by
  unfold concatenateStep
  unfold QuestionsAnswers.Balanced at *
  split <;> simp [h1, h2]

theorem concatenate_balanced (ls : List QuestionsAnswers) (qa : QuestionsAnswers)
    (h1 : qa.Balanced) (h2 : ∀ x ∈ ls, x.Balanced) :
    (qa.Concatenate ls).Balanced := by
  induction ls generalizing qa with
  | nil => exact h1
  | cons x xs ih =>
      unfold QuestionsAnswers.Concatenate at *
      simp only [List.foldl_cons]
      exact ih _ (concatenateStep_balanced qa x h1 (h2 x (by simp)))
        (fun y hy => h2 y (by simp [hy]))

theorem builtQA_balanced (qa : QuestionsAnswers) (h : BuiltQA qa) : qa.Balanced := by
  induction h with
  | new => rfl
  | add qa q a _ ih =>
      unfold QuestionsAnswers.Balanced at *
      simp [QuestionsAnswers.AddEntry, ih]
  | concat qa ls _ _ ih ihs => exact concatenate_balanced ls qa ih ihs

/-- The interrogation mode enumeration of `lib.go`. -/
inductive InterrogationMode
  | linear
  | random
  | summary
deriving Repr, DecidableEq

/-- `InterrogationParameters` of `lib.go`, restricted to the fields a pure
model can carry.  `wait` is a `time.Duration` in nanoseconds.  The stream
fields `in`/`out` and the three channels are part of the environment: the
input stream is passed to the orchestrator as a list of lines and the
channels are rendered as event traces. -/
structure InterrogationParameters where
  interactive : Bool
  wait : Int
  mode : InterrogationMode
  subsections : String
  limit : Nat
  reversed : Bool
deriving Repr, DecidableEq

/-- `IsReversedMode` of `lib.go`. -/
def InterrogationParameters.IsReversedMode (p : InterrogationParameters) : Bool :=
  p.reversed

/-- The default parameter value built at the top of `Parse` (`wait` is
`2 * time.Second` = 2,000,000,000 ns; `limit` is 1). -/
def defaultParameters : InterrogationParameters :=
  { interactive := false
    wait := 2000000000
    mode := InterrogationMode.random
    subsections := ""
    limit := 1
    reversed := false }

/-- Value of a decimal digit character. -/
def digitVal (c : Char) : Nat := c.toNat - 48

/-- Numeric value of a list of decimal digit characters. -/
def digitsVal (ds : List Char) : Nat :=
  ds.foldl (fun acc c => acc * 10 + digitVal c) 0

/-- `strconv.Atoi` (i.e. `strconv.ParseInt(s, 10, 0)` with 64-bit `int`):
`none` exactly when Go returns a non-nil error — empty string, sign with no
digits, a non-digit character, or a value outside `[-2^63, 2^63-1]`. -/
def goAtoi (s : String) : Option Int :=
  match s.toList with
  | [] => none
  | c :: rest =>
      let neg : Bool := c = '-'
      let ds : List Char := if c = '-' ∨ c = '+' then rest else c :: rest
      if ds = [] then none
      else if ds.all Char.isDigit then
        let v : Int := if neg then -(digitsVal ds : Int) else (digitsVal ds : Int)
        if v < -(2 ^ 63) ∨ v > 2 ^ 63 - 1 then none else some v
      else none

/-- The body of `Parse`'s `for i, opt := range args` loop.  Go indexes
`args[i+1]` for the options `-t`, `-m` and `-l`; when `i` is the last index
this access panics, modelled by `none`.  Note that Go's `range` loop does
not skip the option's value: the value string is examined again as an
option at the next iteration, which the recursion on the tail reproduces.
An `Except.error` result models `Parse` returning a non-nil error. -/
def parseLoop : List String → InterrogationParameters → Option (Except String InterrogationParameters)
  | [], p => some (Except.ok p)
  | opt :: rest, p =>
      match opt with
      | "-i" => parseLoop rest { p with interactive := true }
      | "-t" =>
          match rest with
          | [] => none
          | v :: _ =>
              match goAtoi v with
              | none => some (Except.error
                  ("The time you set (" ++ v ++ ") is not an integer. Please set the time in milliseconds."))
              | some value => parseLoop rest { p with wait := value * 1000000 }
      | "-m" =>
          match rest with
          | [] => none
          | v :: _ => parseLoop rest (if v = "linear" then { p with mode := InterrogationMode.linear } else p)
      | "-s" => parseLoop rest { p with mode := InterrogationMode.summary }
      | "-l" =>
          match rest with
          | [] => none
          | v :: _ => parseLoop rest { p with subsections := v }
      | "-r" => parseLoop rest { p with reversed := true }
      | _ => parseLoop rest p

/-- `Parse` of `lib.go`: builds the default parameters and runs the option
loop.  `none` models a panic (index out of range). -/
def Parse (args : List String) : Option (Except String InterrogationParameters) :=
  parseLoop args defaultParameters

/-- Channel-level events of the orchestrator (`AskQuestions`). -/
inductive Event
  | qaSend (v : String)
  | cmdSend (v : String)
  | sleep
  | closeQA
  | closeCmd
deriving Repr, DecidableEq

/-- The pacing step of one iteration of `AskQuestions`: non-interactive
sessions sleep for `p.wait`; interactive ones scan one line from the input
stream and send it on the command channel only when a line was read
(`if s.Scan() { p.command <- s.Text() }`).  Returns the events of the step
and the remaining input lines. -/
def paceStep (p : InterrogationParameters) (input : List String) : List Event × List String :=
  if !p.interactive then ([Event.sleep], input)
  else
    match input with
    | [] => ([], [])
    | line :: rest => ([Event.cmdSend line], rest)

/-- The `for` loop of `AskQuestions`, with state `(fullLoop, i, j, input)`
and explicit fuel.  `none` models either fuel exhaustion or a Go panic
(`j % nbOfQuestions` with a zero count, or an index out of range).  The
oracle `pick j` is the value drawn by `rand.Int31n(int32(nbOfQuestions))`
at iteration `j` in random mode. -/
def askLoop (qa : QuestionsAnswers) (p : InterrogationParameters) (pick : Nat → Nat) :
    Nat → Nat → Nat → Nat → List String → Option (List Event)
  | 0, _, _, _, _ => none
  | fuel + 1, fullLoop, i, j, input =>
      if qa.GetCount = 0 then none
      else if j % qa.GetCount = 0 ∧ fullLoop + 1 > p.limit then
        some [Event.closeQA, Event.closeCmd]
      else
        let fullLoop1 := if j % qa.GetCount = 0 then fullLoop + 1 else fullLoop
        let i1 := if p.mode = InterrogationMode.random then pick j else i
        match qa.questions.get? i1, qa.answers.get? i1 with
        | some q0, some a0 =>
            let question := if p.IsReversedMode then a0 else q0
            let answer := if p.IsReversedMode then q0 else a0
            let pace := paceStep p input
            let i2 := if p.mode = InterrogationMode.linear then (i1 + 1) % qa.GetCount else i1
            (fun tr => Event.qaSend question :: (pace.1 ++ (Event.qaSend answer :: tr))) <$>
              askLoop qa p pick fuel fullLoop1 i2 (j + 1) pace.2
        | _, _ => none

/-- `AskQuestions` of `lib.go`, as the trace of channel events it performs
(the three worker goroutines it spawns are modelled separately by
`fanOutChannel` and `publishChanToWriter`). -/
def AskQuestions (qa : QuestionsAnswers) (p : InterrogationParameters) (pick : Nat → Nat)
    (input : List String) (fuel : Nat) : Option (List Event) :=
  askLoop qa p pick fuel 0 0 0 input

/-- Specification-level trace of the orchestrator: `n` remaining
iterations, then the two channel closes.  `askLoop` is proved equal to this
(for sufficient fuel) in `askLoop_eq_sessionTrace`. -/
def sessionTrace (qa : QuestionsAnswers) (p : InterrogationParameters) (pick : Nat → Nat) :
    Nat → Nat → Nat → List String → List Event
  | 0, _, _, _ => [Event.closeQA, Event.closeCmd]
  | n + 1, i, j, input =>
      let i1 := if p.mode = InterrogationMode.random then pick j else i
      let q0 := qa.questions.getD i1 ""
      let a0 := qa.answers.getD i1 ""
      let question := if p.IsReversedMode then a0 else q0
      let answer := if p.IsReversedMode then q0 else a0
      let pace := paceStep p input
      let i2 := if p.mode = InterrogationMode.linear then (i1 + 1) % qa.GetCount else i1
      Event.qaSend question :: (pace.1 ++ (Event.qaSend answer ::
        sessionTrace qa p pick n i2 (j + 1) pace.2))

/-- The value of `fullLoop` at the head of the `AskQuestions` loop as a
function of the iteration counter `j`. -/
def loopInv (C j : Nat) : Nat := j / C + (if j % C = 0 then 0 else 1)

theorem loopInv_succ (C j : Nat) (hC : 0 < C) :
    (if j % C = 0 then loopInv C j + 1 else loopInv C j) = loopInv C (j + 1) := by
  unfold loopInv
  have h1 : (j + 1) / C = j / C + if C ∣ (j + 1) then 1 else 0 := Nat.succ_div j C
  have h2 : C ∣ (j + 1) ↔ (j + 1) % C = 0 := Nat.dvd_iff_mod_eq_zero
  by_cases h : j % C = 0 <;> by_cases h3 : (j + 1) % C = 0 <;>
    simp [h, h3, h1, h2]

theorem getD_of_get? (l : List String) (n : Nat) (x : String) (h : l.get? n = some x) :
    l.getD n "" = x := by
  simp [List.getD_eq_getElem?_getD, ← List.get?_eq_getElem?, h]

/-- With sufficient fuel and a non-empty balanced set, the orchestrator
loop runs exactly `p.limit * count` iterations and its trace is
`sessionTrace`. -/
theorem askLoop_eq_sessionTrace (qa : QuestionsAnswers) (p : InterrogationParameters)
    (pick : Nat → Nat) (hC : 0 < qa.GetCount) (hbal : qa.Balanced)
    (hpick : p.mode = InterrogationMode.random → ∀ k, pick k < qa.GetCount) :
    ∀ n fullLoop i j input fuel,
      j + n = p.limit * qa.GetCount →
      fullLoop = loopInv qa.GetCount j →
      i < qa.GetCount →
      n + 1 ≤ fuel →
      askLoop qa p pick fuel fullLoop i j input = some (sessionTrace qa p pick n i j input) := by
  intro n
  induction n with
  | zero =>
      intro fullLoop i j input fuel hj hfl hi hfuel
      obtain ⟨f, rfl⟩ : ∃ f, fuel = f + 1 := ⟨fuel - 1, by omega⟩
      have hjC : j % qa.GetCount = 0 := by
        simp only [Nat.add_zero] at hj
        subst hj
        exact Nat.mul_mod_left p.limit qa.GetCount
      have hdiv : j / qa.GetCount = p.limit := by
        simp only [Nat.add_zero] at hj
        subst hj
        exact Nat.mul_div_cancel p.limit hC
      rw [askLoop, if_neg (by omega), if_pos]
      · rfl
      · constructor
        · exact hjC
        · rw [hfl]
          unfold loopInv
          rw [hjC, hdiv]
          simp
  | succ n ih =>
      intro fullLoop i j input fuel hj hfl hi hfuel
      obtain ⟨f, rfl⟩ : ∃ f, fuel = f + 1 := ⟨fuel - 1, by omega⟩
      have hjlt : j < p.limit * qa.GetCount := by omega
      have hnobreak : ¬(j % qa.GetCount = 0 ∧ fullLoop + 1 > p.limit) := by
        rintro ⟨hjC, hgt⟩
        rw [hfl] at hgt
        unfold loopInv at hgt
        rw [hjC] at hgt
        simp at hgt
        have := (Nat.div_lt_iff_lt_mul hC).mpr hjlt
        omega
      rw [askLoop, if_neg (by omega), if_neg hnobreak]
      have hi1 : (if p.mode = InterrogationMode.random then pick j else i) < qa.GetCount := by
        split
        · next hm => exact hpick hm j
        · exact hi
      set i1 := if p.mode = InterrogationMode.random then pick j else i with hi1def
      obtain ⟨q0, hq0⟩ : ∃ q0, qa.questions.get? i1 = some q0 :=
        List.get?_eq_get (l := qa.questions) (n := i1) hi1 ▸ ⟨_, rfl⟩
      obtain ⟨a0, ha0⟩ : ∃ a0, qa.answers.get? i1 = some a0 := by
        have : i1 < qa.answers.length := by
          unfold QuestionsAnswers.Balanced at hbal
          unfold QuestionsAnswers.GetCount at hi1
          omega
        exact List.get?_eq_get (l := qa.answers) (n := i1) this ▸ ⟨_, rfl⟩
      simp only [hq0, ha0]
      rw [ih _ _ _ _ f (by omega) (by rw [hfl]; exact loopInv_succ _ j hC)
        (by split
            · exact Nat.mod_lt _ hC
            · exact hi1) (by omega)]
      rw [sessionTrace]
      simp only [← hi1def, getD_of_get? _ _ _ hq0, getD_of_get? _ _ _ ha0]
      rfl

/-- Recogniser for `qachan` send events. -/
def isQASend : Event → Bool
  | Event.qaSend _ => true
  | _ => false

/-- Recogniser for channel close events. -/
def isClose : Event → Bool
  | Event.closeQA => true
  | Event.closeCmd => true
  | _ => false

/-- The text sent on `qachan`, for send events. -/
def qaText : Event → Option String
  | Event.qaSend v => some v
  | _ => none

theorem paceStep_events (p : InterrogationParameters) (input : List String) :
    ∀ e ∈ (paceStep p input).1, isQASend e = false ∧ isClose e = false := by
  unfold paceStep
  split
  · intro e he
    simp at he
    subst he
    exact ⟨rfl, rfl⟩
  · split
    · intro e he
      simp at he
    · intro e he
      simp at he
      subst he
      exact ⟨rfl, rfl⟩

/-- The close-free prefix of the orchestrator trace: all events of the
session before the two final channel closes. -/
def sessionBody (qa : QuestionsAnswers) (p : InterrogationParameters) (pick : Nat → Nat) :
    Nat → Nat → Nat → List String → List Event
  | 0, _, _, _ => []
  | n + 1, i, j, input =>
      let i1 := if p.mode = InterrogationMode.random then pick j else i
      let q0 := qa.questions.getD i1 ""
      let a0 := qa.answers.getD i1 ""
      let question := if p.IsReversedMode then a0 else q0
      let answer := if p.IsReversedMode then q0 else a0
      let pace := paceStep p input
      let i2 := if p.mode = InterrogationMode.linear then (i1 + 1) % qa.GetCount else i1
      Event.qaSend question :: (pace.1 ++ (Event.qaSend answer ::
        sessionBody qa p pick n i2 (j + 1) pace.2))

/-- The orchestrator trace is its close-free body followed by exactly the
two closes, in program order `closeQA` then `closeCmd`. -/
theorem sessionTrace_eq_body (qa : QuestionsAnswers) (p : InterrogationParameters)
    (pick : Nat → Nat) :
    ∀ n i j input, sessionTrace qa p pick n i j input =
      sessionBody qa p pick n i j input ++ [Event.closeQA, Event.closeCmd] := by
  intro n
  induction n with
  | zero => intro i j input; rfl
  | succ n ih =>
      intro i j input
      rw [sessionTrace, sessionBody, ih]
      simp

theorem sessionBody_close_free (qa : QuestionsAnswers) (p : InterrogationParameters)
    (pick : Nat → Nat) :
    ∀ n i j input, ∀ e ∈ sessionBody qa p pick n i j input, isClose e = false := by
  intro n
  induction n with
  | zero => intro i j input e he; simp [sessionBody] at he
  | succ n ih =>
      intro i j input e he
      rw [sessionBody] at he
      simp at he
      rcases he with he | he | he | he
      · subst he; rfl
      · exact (paceStep_events p input e he).2
      · subst he; rfl
      · exact ih _ _ _ e he

theorem sessionBody_countQA (qa : QuestionsAnswers) (p : InterrogationParameters)
    (pick : Nat → Nat) :
    ∀ n i j input, (sessionBody qa p pick n i j input).countP (fun e => isQASend e) = 2 * n := by
  intro n
  induction n with
  | zero => intro i j input; rfl
  | succ n ih =>
      intro i j input
      rw [sessionBody]
      have h0 : (paceStep p input).1.countP (fun e => isQASend e) = 0 := by
        rw [List.countP_eq_zero]
        intro e he
        simp [(paceStep_events p input e he).1]
      simp only [List.countP_cons, List.countP_append, h0, ih]
      simp [isQASend]
      omega

/-- The text emitted as the question at a given index: the stored answer in
reversed mode, the stored question otherwise (`lib.go` lines 353–358). -/
def questionText (qa : QuestionsAnswers) (rev : Bool) (idx : Nat) : String :=
  if rev then qa.answers.getD idx "" else qa.questions.getD idx ""

/-- The text emitted as the answer at a given index: the stored question in
reversed mode, the stored answer otherwise. -/
def answerText (qa : QuestionsAnswers) (rev : Bool) (idx : Nat) : String :=
  if rev then qa.questions.getD idx "" else qa.answers.getD idx ""

/-- The pair sequence the claim predicts for a linear session: iteration
`k` emits the pair at index `k mod count`. -/
def linearEmissions (qa : QuestionsAnswers) (rev : Bool) (n : Nat) : List String :=
  ((List.range n).map (fun k =>
    [questionText qa rev (k % qa.GetCount), answerText qa rev (k % qa.GetCount)])).join

theorem paceStep_filterMap_qaText (p : InterrogationParameters) (input : List String) :
    (paceStep p input).1.filterMap qaText = [] := by
  rw [List.filterMap_eq_nil]
  intro e he
  have := (paceStep_events p input e he).1
  cases e <;> simp_all [qaText, isQASend]

theorem sessionTrace_linear_qaSends (qa : QuestionsAnswers) (p : InterrogationParameters)
    (pick : Nat → Nat) (hmode : p.mode = InterrogationMode.linear) :
    ∀ n i j input, i < qa.GetCount →
      (sessionTrace qa p pick n i j input).filterMap qaText =
        ((List.range n).map (fun k =>
          [questionText qa p.IsReversedMode ((i + k) % qa.GetCount),
           answerText qa p.IsReversedMode ((i + k) % qa.GetCount)])).join := by
  intro n
  induction n with
  | zero => intro i j input hi; rfl
  | succ n ih =>
      intro i j input hi
      rw [sessionTrace]
      have h1 : (if p.mode = InterrogationMode.random then pick j else i) = i := by
        simp [hmode]
      have h2 : (if p.mode = InterrogationMode.linear
            then ((if p.mode = InterrogationMode.random then pick j else i) + 1) % qa.GetCount
            else (if p.mode = InterrogationMode.random then pick j else i)) =
          (i + 1) % qa.GetCount := by
        simp [hmode]
      have h3 : (if p.mode = InterrogationMode.linear then (i + 1) % qa.GetCount else i) =
          (i + 1) % qa.GetCount := by
        simp [hmode]
      simp only [h1, h2, h3]
      rw [List.filterMap_cons, List.filterMap_append, paceStep_filterMap_qaText,
        List.filterMap_cons]
      simp only [qaText]
      have hC : 0 < qa.GetCount := Nat.pos_of_ne_zero (by omega)
      rw [ih ((i + 1) % qa.GetCount) (j + 1) (paceStep p input).2 (Nat.mod_lt _ hC)]
      rw [List.range_succ_eq_map, List.map_cons, List.map_map, List.join]
      have hmod : ∀ k : Nat, ((i + 1) % qa.GetCount + k) % qa.GetCount =
          (i + (k + 1)) % qa.GetCount := by
        intro k
        rw [Nat.mod_add_mod]
        congr 1
        omega
      have hi0 : (i + 0) % qa.GetCount = i := by
        rw [Nat.add_zero]
        exact Nat.mod_eq_of_lt hi
      simp only [hmod, hi0, Function.comp_def, Nat.succ_eq_add_one]
      simp [qaText, questionText, answerText, InterrogationParameters.IsReversedMode]

/-- Events on a relay's outbound channel. -/
inductive ChanEvent
  | send (v : String)
  | close
deriving Repr, DecidableEq

/-- `fanOutChannel` of `lib.go`: drains the inbound channel (given as the
list of values received before the channel is observed closed), forwarding
each value of non-zero length to the outbound channel, and returns when the
inbound channel is closed.  The code contains no `close` of the outbound
channel, so no `ChanEvent.close` is ever produced. -/
def fanOutChannel : List String → List ChanEvent
  | [] => []
  | v :: vs =>
      if v.length ≠ 0 then ChanEvent.send v :: fanOutChannel vs
      else fanOutChannel vs

/-- Everything the publisher writes to its output stream, one constructor
per `fmt.Fprintf` call site of `publishChanToWriter`. -/
inductive OutEvent
  | header (n : Nat)
  | banner (cur max : Nat)
  | questionLine (v : String)
  | answerLine (v : String)
  | separator
  | limitNotice (max : Nat)
deriving Repr, DecidableEq

/-- The flag characters `fmt` accepts after `%` (`#`, `0`, `+`, `-` and
space). -/
def isFmtFlag (c : Char) : Bool :=
  c = '#' || c = '0' || c = '+' || c = '-' || c = ' '

/-- Go's `fmt` `parsenum`: consumes leading decimal digits of the scan
range, returning the value, whether any digit was seen, and the rest; an
accumulated value past 1e6 (`tooLarge`) aborts the scan to the end of the
range with no number. -/
def fmtParsenum : List Char → Nat → Bool → Nat × Bool × List Char
  | [], num, isnum => (num, isnum, [])
  | c :: rest, num, isnum =>
      if c.isDigit then
        if num > 1000000 then (0, false, [])
        else fmtParsenum rest (num * 10 + (c.toNat - 48)) true
      else (num, isnum, c :: rest)

/-- Go's `fmt` `parseArgNumber` on a suffix beginning with `[`: the number
of characters consumed and whether the bracketed index parsed (a closing
bracket whose inside is exactly a digit run). -/
def parseArgNumber (s : List Char) : Nat × Bool :=
  if s.length < 3 then (1, false)
  else
    match (s.drop 1).findIdx? (fun c => c = ']') with
    | none => (1, false)
    | some j =>
        let r := fmtParsenum ((s.drop 1).take j) 0 false
        (j + 2, r.2.1 && r.2.2.isEmpty)

/-- Go's `pp.argNumber` specialised to zero operands: a bracketed index
can never be in range of an empty operand list, so `goodArgNum` becomes
false whenever a `[` is seen.  Returns the remaining suffix, the
`afterIndex` flag (whether the bracket parsed) and the updated
`goodArgNum`. -/
def fmtArgNumber (s : List Char) (good : Bool) : List Char × Bool × Bool :=
  match s with
  | '[' :: _ =>
      let r := parseArgNumber s
      (s.drop r.1, r.2, false)
  | _ => (s, false, good)

/-- The width phase of a `fmt` verb with zero operands: a `*` consumes no
operand, so `fmt` writes `%!(BADWIDTH)`; otherwise a digit run is parsed
and `%[n]w`-style width after an index clears `goodArgNum`.  Returns
(output, rest, afterIndex, goodArgNum). -/
def fmtWidthStep (s : List Char) (afterIndex good : Bool) : List Char × List Char × Bool × Bool :=
  match s with
  | '*' :: rest => ("%!(BADWIDTH)".toList, rest, false, good)
  | _ =>
      let r := fmtParsenum s 0 false
      ([], r.2.2, afterIndex, if afterIndex && r.2.1 then false else good)

/-- The precision phase of a `fmt` verb with zero operands; entered only
when a `.` is followed by at least one character.  A `*` precision writes
`%!(BADPREC)`. -/
def fmtPrecStep (s : List Char) (afterIndex good : Bool) : List Char × List Char × Bool × Bool :=
  match s with
  | '.' :: c :: rest =>
      let g1 := if afterIndex then false else good
      let a := fmtArgNumber (c :: rest) g1
      match a.1 with
      | '*' :: rest2 => ("%!(BADPREC)".toList, rest2, false, a.2.2)
      | other =>
          let r := fmtParsenum other 0 false
          ([], r.2.2, a.2.1, a.2.2)
  | _ => ([], s, afterIndex, good)

/-- The final dispatch on the verb character with zero operands: a
truncated directive gives `%!(NOVERB)` and stops processing, `%%` writes a
literal percent, a bad bracketed index gives `%!v(BADINDEX)`, and every
other verb has no operand left, giving `%!v(MISSING)`. -/
def fmtVerbStep (s : List Char) (good : Bool) : List Char × List Char × Bool :=
  match s with
  | [] => ("%!(NOVERB)".toList, [], true)
  | verb :: rest =>
      if verb = '%' then (['%'], rest, false)
      else if good then ("%!".toList ++ verb :: "(MISSING)".toList, rest, false)
      else ("%!".toList ++ verb :: "(BADINDEX)".toList, rest, false)

/-- One whole `%` directive (the part after the `%`) of Go's `doPrintf`
with zero operands: flags, optional argument index, width, precision,
trailing argument index, then the verb.  Returns (output, rest, stop). -/
def processVerb (s : List Char) : List Char × List Char × Bool :=
  let s1 := s.dropWhile isFmtFlag
  let a := fmtArgNumber s1 true
  let w := fmtWidthStep a.1 a.2.1 a.2.2
  let q := fmtPrecStep w.2.1 w.2.2.1 w.2.2.2
  let a2 := fmtArgNumber q.2.1 q.2.2.2
  let f : List Char × Bool := if q.2.2.1 then (q.2.1, q.2.2.2) else (a2.1, a2.2.2)
  let v := fmtVerbStep f.1 f.2
  (w.1 ++ q.1 ++ v.1, v.2.1, v.2.2)

/-- Go's `fmt` format processing with zero operand arguments (`doPrintf`
with `len(a) == 0`), which is what `fmt.Fprintf(out, s)` runs on `s`:
literal text is copied, each `%` directive is processed by `processVerb`.
Every loop iteration past the first character consumes at least one
character, so the wrapper's fuel of `length + 1` is never exhausted
(`doPrintfGo_fuel`). -/
def doPrintfGo : Nat → List Char → List Char
  | 0, _ => []
  | fuel + 1, s =>
      let lit := s.takeWhile (fun c => c ≠ '%')
      match s.dropWhile (fun c => c ≠ '%') with
      | [] => lit
      | _ :: rest1 =>
          let pv := processVerb rest1
          lit ++ pv.1 ++ (if pv.2.2 then [] else doPrintfGo fuel pv.2.1)

/-- The text `fmt.Fprintf(out, format)` (no operands) writes for a given
format string. -/
def goDoPrintf (format : String) : String :=
  String.mk (doPrintfGo (format.toList.length + 1) format.toList)

theorem dropWhile_length (p : Char → Bool) (l : List Char) :
    (l.dropWhile p).length ≤ l.length := by
  induction l with
  | nil => simp
  | cons c cs ih =>
      rw [List.dropWhile_cons]
      split
      · simp
        omega
      · simp

theorem fmtParsenum_length : ∀ (s : List Char) (n : Nat) (b : Bool),
    (fmtParsenum s n b).2.2.length ≤ s.length := by
  intro s
  induction s with
  | nil => intro n b; simp [fmtParsenum]
  | cons c cs ih =>
      intro n b
      rw [fmtParsenum]
      split_ifs
      · simp
      · have := ih (n * 10 + (c.toNat - 48)) true
        simp
        omega
      · simp

theorem fmtArgNumber_length (s : List Char) (g : Bool) :
    (fmtArgNumber s g).1.length ≤ s.length := by
  unfold fmtArgNumber
  split
  · simp
  · simp

theorem fmtWidthStep_length (s : List Char) (ai g : Bool) :
    (fmtWidthStep s ai g).2.1.length ≤ s.length := by
  rw [fmtWidthStep.eq_def]
  split
  · next rest =>
      show rest.length ≤ rest.length + 1
      omega
  · show (fmtParsenum s 0 false).2.2.length ≤ s.length
    exact fmtParsenum_length s 0 false

theorem fmtPrecStep_length (s : List Char) (ai g : Bool) :
    (fmtPrecStep s ai g).2.1.length ≤ s.length := by
  rw [fmtPrecStep.eq_def]
  split
  · next c rest =>
      simp only []
      have h2 := fmtArgNumber_length (c :: rest) (if ai = true then false else g)
      generalize ha : fmtArgNumber (c :: rest) (if ai = true then false else g) = a at h2 ⊢
      obtain ⟨a1, aai, ag⟩ := a
      simp only [List.length_cons] at h2 ⊢
      split
      · next rest2 =>
          show rest2.length ≤ rest.length + 2
          simp only [List.length_cons] at h2
          omega
      · next other =>
          show (fmtParsenum a1 0 false).2.2.length ≤ rest.length + 2
          have hp := fmtParsenum_length a1 0 false
          omega
  · exact Nat.le_refl _

theorem fmtVerbStep_length (s : List Char) (g : Bool) :
    (fmtVerbStep s g).2.1.length ≤ s.length := by
  rw [fmtVerbStep.eq_def]
  split
  · simp
  · next verb rest =>
      split_ifs <;> · show rest.length ≤ rest.length + 1; omega

theorem processVerb_length (s : List Char) : (processVerb s).2.1.length ≤ s.length := by
  have h1 := dropWhile_length isFmtFlag s
  simp only [processVerb]
  generalize hs1 : s.dropWhile isFmtFlag = s1 at h1 ⊢
  have h2 := fmtArgNumber_length s1 true
  generalize hA : fmtArgNumber s1 true = a at h2 ⊢
  obtain ⟨a1, aai, ag⟩ := a
  have h3 := fmtWidthStep_length a1 aai ag
  generalize hW : fmtWidthStep a1 aai ag = w at h3 ⊢
  obtain ⟨w1, w2, wai, wg⟩ := w
  have h4 := fmtPrecStep_length w2 wai wg
  generalize hQ : fmtPrecStep w2 wai wg = q at h4 ⊢
  obtain ⟨q1, q2, qai, qg⟩ := q
  have h5 := fmtArgNumber_length q2 qg
  generalize hA2 : fmtArgNumber q2 qg = a2 at h5 ⊢
  obtain ⟨a21, a2i, a2g⟩ := a2
  simp only at h2 h3 h4 h5 ⊢
  by_cases hqai : qai = true
  · have h6 := fmtVerbStep_length q2 qg
    simp [hqai]
    omega
  · have h6 := fmtVerbStep_length a21 a2g
    simp [hqai]
    omega

theorem doPrintfGo_fuel : ∀ (f1 f2 : Nat) (s : List Char),
    s.length < f1 → s.length < f2 → doPrintfGo f1 s = doPrintfGo f2 s := by
  intro f1
  induction f1 with
  | zero => intro f2 s h1 _; omega
  | succ f1 ih =>
      intro f2 s h1 h2
      obtain ⟨g, rfl⟩ : ∃ g, f2 = g + 1 := ⟨f2 - 1, by omega⟩
      rw [doPrintfGo, doPrintfGo]
      cases hdrop : s.dropWhile (fun c => c ≠ '%') with
      | nil => simp [hdrop]
      | cons c rest1 =>
          simp only [hdrop]
          have hr1 : rest1.length + 1 ≤ s.length := by
            have := dropWhile_length (fun c => c ≠ '%') s
            rw [hdrop] at this
            simpa using this
          have hpv := processVerb_length rest1
          split
          · rfl
          · rw [ih g (processVerb rest1).2.1 (by omega) (by omega)]

theorem goDoPrintf_no_percent (s : String) (h : ¬ '%' ∈ s.toList) : goDoPrintf s = s := by
  unfold goDoPrintf
  have htake : s.toList.takeWhile (fun c => c ≠ '%') = s.toList := by
    rw [List.takeWhile_eq_self_iff]
    intro c hc
    simp
    intro hceq
    exact h (hceq ▸ hc)
  have hdrop : s.toList.dropWhile (fun c => c ≠ '%') = [] := by
    rw [List.dropWhile_eq_nil_iff]
    intro c hc
    simp
    intro hceq
    exact h (hceq ▸ hc)
  rw [doPrintfGo]
  simp only [hdrop, htake]
  rfl

/-- The exact text of each publisher write.  The header, banner and notice
calls format a constant string with proper operands, so they render
normally (the `banner` text is additionally wrapped in terminal colour
codes by `color.New(color.FgBlue).Add(color.Bold)`, which we omit; the
colour-rendered text contains no `%`, so the outer operand-less `Fprintf`
copies it).  Lines 314 and 317 of `lib.go` pass the received value through
`fmt.Fprintf` as (part of) the format string with no operands, so those
two writes go through the zero-operand format processor `goDoPrintf` and
are not verbatim for values containing `%`. -/
def render : OutEvent → String
  | OutEvent.header n => "Nb of questions: " ++ toString n ++ "\n"
  | OutEvent.banner cur mx => "Loop (" ++ toString cur ++ "/" ++ toString mx ++ ")\n"
  | OutEvent.questionLine v => goDoPrintf v
  | OutEvent.answerLine v => goDoPrintf ("     --> " ++ v ++ "\n")
  | OutEvent.separator => "---------------------------\n"
  | OutEvent.limitNotice mx => "Limit reached. Exiting. Number of loops set to: " ++ toString mx ++ "\n"

/-- The `switch` on `itemsRead % 2` in `publishChanToWriter`, applied after
`itemsRead++`: an odd item is written verbatim as a question line, an even
item as an answer line followed by the dash separator. -/
def emitItem (itemsRead : Nat) (v : String) : List OutEvent :=
  if itemsRead % 2 = 1 then [OutEvent.questionLine v]
  else [OutEvent.answerLine v, OutEvent.separator]

/-- The `for` loop of `publishChanToWriter` with state
`(itemsRead, currentLoop)`.  The received stream is the list of values read
from the shared channel before it is (or would be) observed closed; the
stream running out models `ok == false`.  `none` models the Go panic of
`itemsRead % (2*qCount)` when `qCount = 0`.  Structural recursion on the
stream is possible because every loop iteration that does not return
consumes exactly one value. -/
def publishLoop (qCount maxLoops : Nat) : Nat → Nat → List String → Option (List OutEvent)
  | itemsRead, currentLoop, [] =>
      if 2 * qCount = 0 then none
      else if itemsRead % (2 * qCount) = 0 then
        if currentLoop + 1 > maxLoops then some [OutEvent.limitNotice maxLoops]
        else some [OutEvent.banner (currentLoop + 1) maxLoops]
      else some []
  | itemsRead, currentLoop, v :: vs =>
      if 2 * qCount = 0 then none
      else if itemsRead % (2 * qCount) = 0 then
        if currentLoop + 1 > maxLoops then some [OutEvent.limitNotice maxLoops]
        else
          (fun tr => OutEvent.banner (currentLoop + 1) maxLoops ::
            (emitItem (itemsRead + 1) v ++ tr)) <$>
            publishLoop qCount maxLoops (itemsRead + 1) (currentLoop + 1) vs
      else
        (fun tr => emitItem (itemsRead + 1) v ++ tr) <$>
          publishLoop qCount maxLoops (itemsRead + 1) currentLoop vs

/-- `publishChanToWriter` of `lib.go`: prints the question count header,
then runs the loop starting from `itemsRead = 0`, `currentLoop = 0`. -/
def publishChanToWriter (qCount maxLoops : Nat) (stream : List String) : Option (List OutEvent) :=
  (fun tr => OutEvent.header qCount :: tr) <$> publishLoop qCount maxLoops 0 0 stream

/-- Recogniser for loop banners. -/
def isBanner : OutEvent → Bool
  | OutEvent.banner _ _ => true
  | _ => false

/-- Recogniser for answer lines (each completed question/answer pair
prints exactly one). -/
def isAnswerLine : OutEvent → Bool
  | OutEvent.answerLine _ => true
  | _ => false

/-- Recogniser for the limit-reached notice. -/
def isNotice : OutEvent → Bool
  | OutEvent.limitNotice _ => true
  | _ => false

/-- Recogniser for the header line. -/
def isHeader : OutEvent → Bool
  | OutEvent.header _ => true
  | _ => false

/-- Recogniser for the output produced by received items (question lines,
answer lines and separators, as opposed to banners, header and notice). -/
def isItemEvent : OutEvent → Bool
  | OutEvent.questionLine _ => true
  | OutEvent.answerLine _ => true
  | OutEvent.separator => true
  | _ => false

/-- Item output of the publisher after having already read `r` items, when
it consumes the given list of further values. -/
def emitSeq : Nat → List String → List OutEvent
  | _, [] => []
  | r, v :: vs => emitItem (r + 1) v ++ emitSeq (r + 1) vs

theorem emitItem_count_answer (r : Nat) (v : String) :
    (emitItem r v).countP (fun e => isAnswerLine e) = if r % 2 = 1 then 0 else 1 := by
  unfold emitItem
  split <;> simp_all [isAnswerLine]

theorem emitItem_no_banner (r : Nat) (v : String) :
    (emitItem r v).countP (fun e => isBanner e) = 0 := by
  unfold emitItem
  split <;> simp [isBanner]

theorem emitItem_no_notice (r : Nat) (v : String) :
    (emitItem r v).countP (fun e => isNotice e) = 0 := by
  unfold emitItem
  split <;> simp [isNotice]

theorem emitItem_no_header (r : Nat) (v : String) :
    (emitItem r v).countP (fun e => isHeader e) = 0 := by
  unfold emitItem
  split <;> simp [isHeader]

theorem emitItem_ne_nil (r : Nat) (v : String) : emitItem r v ≠ [] := by
  unfold emitItem
  split <;> simp

theorem emitSeq_count_answer : ∀ (l : List String) (r : Nat),
    (emitSeq r l).countP (fun e => isAnswerLine e) = (l.length + r % 2) / 2 := by
  intro l
  induction l with
  | nil => intro r; simp [emitSeq]
  | cons v vs ih =>
      intro r
      rw [emitSeq, List.countP_append, emitItem_count_answer, ih]
      simp only [List.length_cons]
      split_ifs with h <;> omega

theorem emitSeq_no_banner : ∀ (l : List String) (r : Nat),
    (emitSeq r l).countP (fun e => isBanner e) = 0 := by
  intro l
  induction l with
  | nil => intro r; rfl
  | cons v vs ih =>
      intro r
      rw [emitSeq, List.countP_append, emitItem_no_banner, ih]

theorem emitSeq_no_notice : ∀ (l : List String) (r : Nat),
    (emitSeq r l).countP (fun e => isNotice e) = 0 := by
  intro l
  induction l with
  | nil => intro r; rfl
  | cons v vs ih =>
      intro r
      rw [emitSeq, List.countP_append, emitItem_no_notice, ih]

theorem emitSeq_no_header : ∀ (l : List String) (r : Nat),
    (emitSeq r l).countP (fun e => isHeader e) = 0 := by
  intro l
  induction l with
  | nil => intro r; rfl
  | cons v vs ih =>
      intro r
      rw [emitSeq, List.countP_append, emitItem_no_header, ih]

/-- With a zero question count the publisher's modulus is zero and the Go
code panics on its first loop iteration. -/
theorem publishLoop_qcount_zero (L r c : Nat) (s : List String) :
    publishLoop 0 L r c s = none := by
  cases s <;> simp [publishLoop]

/-- Mid-block consumption: while `itemsRead` is never a multiple of
`2*qCount`, the publisher consumes one item per iteration and emits only
item output. -/
theorem publishLoop_consume (C L : Nat) :
    ∀ (block : List String) (r c : Nat) (rest : List String),
      (∀ m, m < block.length → (r + m) % (2 * C) ≠ 0) →
      publishLoop C L r c (block ++ rest) =
        (fun tr => emitSeq r block ++ tr) <$> publishLoop C L (r + block.length) c rest := by
  intro block
  induction block with
  | nil =>
      intro r c rest _
      cases h : publishLoop C L (r + [].length) c rest <;> simp_all [emitSeq]
  | cons v vs ih =>
      intro r c rest hm
      rcases Nat.eq_zero_or_pos C with hC | hC
      · subst hC
        rw [publishLoop_qcount_zero, publishLoop_qcount_zero]
        rfl
      have h0 : r % (2 * C) ≠ 0 := by
        have := hm 0 (by simp)
        simpa using this
      have h2C : ¬(2 * C = 0) := by omega
      rw [List.cons_append, publishLoop, if_neg h2C, if_neg h0]
      rw [ih (r + 1) c rest (fun m hmlt => by
        have h := hm (m + 1) (by simpa using Nat.succ_lt_succ hmlt)
        have he : r + 1 + m = r + (m + 1) := by omega
        rw [he]
        exact h)]
      have he2 : r + (v :: vs).length = r + 1 + vs.length := by simp; omega
      rw [he2]
      cases h : publishLoop C L (r + 1 + vs.length) c rest <;> simp [emitSeq]

/-- One full pass of the publisher: at a block boundary with loops left, it
prints the banner, consumes `2*qCount` items, and reaches the next
boundary. -/
theorem publishLoop_banner_block (C L : Nat) (hC : 0 < C)
    (r c : Nat) (hr : r % (2 * C) = 0) (hcL : c + 1 ≤ L)
    (block : List String) (hlen : block.length = 2 * C) (rest : List String) :
    publishLoop C L r c (block ++ rest) =
      (fun tr => OutEvent.banner (c + 1) L :: (emitSeq r block ++ tr)) <$>
        publishLoop C L (r + 2 * C) (c + 1) rest := by
  match block, hlen with
  | [], hlen => simp at hlen; omega
  | v :: vs, hlen =>
    have h2C : ¬(2 * C = 0) := by omega
    have hvs : vs.length = 2 * C - 1 := by
      simp only [List.length_cons] at hlen
      omega
    rw [List.cons_append, publishLoop, if_neg h2C, if_pos hr, if_neg (by omega)]
    rw [publishLoop_consume C L vs (r + 1) (c + 1) rest (fun m hmlt => by
      have h1 : (r + 1 + m) % (2 * C) = (1 + m) % (2 * C) := by
        rw [Nat.add_assoc, Nat.add_mod, hr]
        simp
      have h2 : (1 + m) % (2 * C) = 1 + m := Nat.mod_eq_of_lt (by omega)
      rw [h1, h2]
      omega)]
    have he : r + 1 + vs.length = r + 2 * C := by omega
    rw [he]
    cases h : publishLoop C L (r + 2 * C) (c + 1) rest <;> simp [emitSeq]

/-- At a block boundary with no loops left, the publisher prints the
limit-reached notice and returns, whether or not the channel is open. -/
theorem publishLoop_limit (C L : Nat) (hC : 0 < C) (r c : Nat)
    (hr : r % (2 * C) = 0) (hcL : L ≤ c) (s : List String) :
    publishLoop C L r c s = some [OutEvent.limitNotice L] := by
  cases s <;>
    · rw [publishLoop, if_neg (by omega), if_pos hr, if_pos (by omega)]

/-- Full-block characterisation of the publisher: with `n` loops left and
at least `2*qCount*n` items available, it emits exactly `n` banners,
`qCount * n` answer lines, no header, and ends with the limit notice. -/
theorem publishLoop_main (C L : Nat) (hC : 0 < C) :
    ∀ (n r c : Nat) (stream : List String),
      c + n = L → r % (2 * C) = 0 → 2 * C * n ≤ stream.length →
      ∃ tr, publishLoop C L r c stream = some tr ∧
        tr.countP (fun e => isBanner e) = n ∧
        tr.countP (fun e => isAnswerLine e) = C * n ∧
        tr.countP (fun e => isNotice e) = 1 ∧
        tr.countP (fun e => isHeader e) = 0 ∧
        tr.getLast? = some (OutEvent.limitNotice L) := by
  intro n
  induction n with
  | zero =>
      intro r c stream hcn hr _
      refine ⟨[OutEvent.limitNotice L], publishLoop_limit C L hC r c hr (by omega) stream, ?_⟩
      simp [isBanner, isAnswerLine, isNotice, isHeader]
  | succ n ih =>
      intro r c stream hcn hr hlen
      have h2C : 2 * C ≤ stream.length := by
        have : 2 * C * 1 ≤ 2 * C * (n + 1) := by
          apply Nat.mul_le_mul_left
          omega
        omega
      have hsplit : stream.take (2 * C) ++ stream.drop (2 * C) = stream :=
        List.take_append_drop (2 * C) stream
      have hblen : (stream.take (2 * C)).length = 2 * C := by
        rw [List.length_take]
        omega
      have hmul : 2 * C * (n + 1) = 2 * C * n + 2 * C := by ring
      obtain ⟨tr0, htr0, hb0, ha0, hn0, hh0, hl0⟩ :=
        ih (r + 2 * C) (c + 1) (stream.drop (2 * C)) (by omega)
          (by rw [Nat.add_mod_right, hr]) (by rw [List.length_drop]; omega)
      refine ⟨OutEvent.banner (c + 1) L :: (emitSeq r (stream.take (2 * C)) ++ tr0), ?_, ?_, ?_, ?_, ?_, ?_⟩
      · conv_lhs => rw [← hsplit]
        rw [publishLoop_banner_block C L hC r c hr (by omega) _ hblen, htr0]
        rfl
      · rw [List.countP_cons, List.countP_append, emitSeq_no_banner, hb0]
        simp [isBanner]
      · rw [List.countP_cons, List.countP_append, emitSeq_count_answer, ha0, hblen]
        have hr2 : r % 2 = 0 := by
          have h2 : (2 : Nat) ∣ 2 * C := ⟨C, rfl⟩
          rw [← Nat.mod_mod_of_dvd r h2, hr]
        rw [hr2]
        simp [isAnswerLine]
        ring
      · rw [List.countP_cons, List.countP_append, emitSeq_no_notice, hn0]
        simp [isNotice]
      · rw [List.countP_cons, List.countP_append, emitSeq_no_header, hh0]
        simp [isHeader]
      · rw [← List.cons_append, List.getLast?_append, hl0]
        simp

/-- Each pair needs two received items, so the publisher can never print
more answer lines than half the received stream (shifted by the parity of
the items already read). -/
theorem publishLoop_answers_le (C L : Nat) :
    ∀ (stream : List String) (r c : Nat) (tr : List OutEvent),
      publishLoop C L r c stream = some tr →
      tr.countP (fun e => isAnswerLine e) ≤ (stream.length + r % 2) / 2 := by
  intro stream
  induction stream with
  | nil =>
      intro r c tr h
      rw [publishLoop] at h
      split_ifs at h <;> cases h <;> simp [List.countP, List.countP.go, isAnswerLine]
  | cons v vs ih =>
      intro r c tr h
      rw [publishLoop] at h
      by_cases h1 : 2 * C = 0
      · rw [if_pos h1] at h
        cases h
      · rw [if_neg h1] at h
        by_cases h2 : r % (2 * C) = 0
        · rw [if_pos h2] at h
          by_cases h3 : c + 1 > L
          · rw [if_pos h3] at h
            cases h
            have h0 : List.countP (fun e => isAnswerLine e) [OutEvent.limitNotice L] = 0 := rfl
            omega
          · rw [if_neg h3] at h
            cases hrec : publishLoop C L (r + 1) (c + 1) vs with
            | none => rw [hrec] at h; cases h
            | some tr0 =>
                rw [hrec] at h
                simp only [Option.map_some, Option.some.injEq] at h
                subst h
                have hle := ih (r + 1) (c + 1) tr0 hrec
                have hr2 : r % 2 = 0 := by
                  have hdvd : (2 : Nat) ∣ 2 * C := ⟨C, rfl⟩
                  rw [← Nat.mod_mod_of_dvd r hdvd, h2]
                have hr1 : (r + 1) % 2 = 1 := by omega
                rw [hr1] at hle
                rw [List.countP_cons, List.countP_append, emitItem_count_answer, hr1]
                have hb : isAnswerLine (OutEvent.banner (c + 1) L) = false := rfl
                rw [hb]
                simp only [List.length_cons, hr2]
                simp
                omega
        · rw [if_neg h2] at h
          cases hrec : publishLoop C L (r + 1) c vs with
          | none => rw [hrec] at h; cases h
          | some tr0 =>
              rw [hrec] at h
              simp only [Option.map_some, Option.some.injEq] at h
              subst h
              have hle := ih (r + 1) c tr0 hrec
              rw [List.countP_append, emitItem_count_answer]
              simp only [List.length_cons]
              split_ifs with hp <;> omega

/-- The publisher never prints more banners than it has loops left. -/
theorem publishLoop_banners_le (C L : Nat) :
    ∀ (stream : List String) (r c : Nat) (tr : List OutEvent),
      c ≤ L →
      publishLoop C L r c stream = some tr →
      tr.countP (fun e => isBanner e) ≤ L - c := by
  intro stream
  induction stream with
  | nil =>
      intro r c tr hcL h
      rw [publishLoop] at h
      split_ifs at h with h1 h2 h3 <;> cases h <;>
        simp [List.countP, List.countP.go, isBanner] <;> omega
  | cons v vs ih =>
      intro r c tr hcL h
      rw [publishLoop] at h
      by_cases h1 : 2 * C = 0
      · rw [if_pos h1] at h
        cases h
      · rw [if_neg h1] at h
        by_cases h2 : r % (2 * C) = 0
        · rw [if_pos h2] at h
          by_cases h3 : c + 1 > L
          · rw [if_pos h3] at h
            cases h
            have h0 : List.countP (fun e => isBanner e) [OutEvent.limitNotice L] = 0 := rfl
            omega
          · rw [if_neg h3] at h
            cases hrec : publishLoop C L (r + 1) (c + 1) vs with
            | none => rw [hrec] at h; cases h
            | some tr0 =>
                rw [hrec] at h
                simp only [Option.map_some, Option.some.injEq] at h
                subst h
                have hle := ih (r + 1) (c + 1) tr0 (by omega) hrec
                rw [List.countP_cons, List.countP_append, emitItem_no_banner]
                have hb : isBanner (OutEvent.banner (c + 1) L) = true := rfl
                rw [hb]
                simp only [if_true]
                omega
        · rw [if_neg h2] at h
          cases hrec : publishLoop C L (r + 1) c vs with
          | none => rw [hrec] at h; cases h
          | some tr0 =>
              rw [hrec] at h
              simp only [Option.map_some, Option.some.injEq] at h
              subst h
              have hle := ih (r + 1) c tr0 hcL hrec
              rw [List.countP_append, emitItem_no_banner]
              omega

theorem emitItem_filter (r : Nat) (v : String) :
    (emitItem r v).filter (fun e => isItemEvent e) = emitItem r v := by
  unfold emitItem
  split <;> simp [isItemEvent]

/-- The item-derived output of the publisher is exactly `emitSeq` applied
to the prefix of the stream it consumed: the `k`-th consumed value becomes
a verbatim question line when `k` is odd and an answer line plus separator
when `k` is even. -/
theorem publishLoop_items (C L : Nat) :
    ∀ (stream : List String) (r c : Nat) (tr : List OutEvent),
      publishLoop C L r c stream = some tr →
      ∃ k, tr.filter (fun e => isItemEvent e) = emitSeq r (stream.take k) := by
  intro stream
  induction stream with
  | nil =>
      intro r c tr h
      rw [publishLoop] at h
      split_ifs at h <;> cases h <;> exact ⟨0, rfl⟩
  | cons v vs ih =>
      intro r c tr h
      rw [publishLoop] at h
      by_cases h1 : 2 * C = 0
      · rw [if_pos h1] at h
        cases h
      · rw [if_neg h1] at h
        by_cases h2 : r % (2 * C) = 0
        · rw [if_pos h2] at h
          by_cases h3 : c + 1 > L
          · rw [if_pos h3] at h
            cases h
            exact ⟨0, rfl⟩
          · rw [if_neg h3] at h
            cases hrec : publishLoop C L (r + 1) (c + 1) vs with
            | none => rw [hrec] at h; cases h
            | some tr0 =>
                rw [hrec] at h
                simp only [Option.map_some, Option.some.injEq] at h
                subst h
                obtain ⟨k0, hk0⟩ := ih (r + 1) (c + 1) tr0 hrec
                refine ⟨k0 + 1, ?_⟩
                rw [List.filter_cons, List.filter_append, emitItem_filter, hk0]
                have hbf : isItemEvent (OutEvent.banner (c + 1) L) = false := rfl
                rw [hbf]
                simp only [Bool.false_eq_true, if_false, List.take_succ_cons, emitSeq]
        · rw [if_neg h2] at h
          cases hrec : publishLoop C L (r + 1) c vs with
          | none => rw [hrec] at h; cases h
          | some tr0 =>
              rw [hrec] at h
              simp only [Option.map_some, Option.some.injEq] at h
              subst h
              obtain ⟨k0, hk0⟩ := ih (r + 1) c tr0 hrec
              refine ⟨k0 + 1, ?_⟩
              rw [List.filter_append, emitItem_filter, hk0]
              simp only [List.take_succ_cons, emitSeq]

/-- With a positive question count the publisher never panics: its modulus
is positive. -/
theorem publishLoop_isSome (C L : Nat) (hC : 0 < C) :
    ∀ (stream : List String) (r c : Nat), publishLoop C L r c stream ≠ none := by
  intro stream
  induction stream with
  | nil =>
      intro r c
      rw [publishLoop]
      split_ifs <;> simp <;> omega
  | cons v vs ih =>
      intro r c
      rw [publishLoop]
      rw [if_neg (by omega)]
      split_ifs
      · simp
      · cases hrec : publishLoop C L (r + 1) (c + 1) vs with
        | none => exact absurd hrec (ih (r + 1) (c + 1))
        | some tr0 => simp [hrec]
      · cases hrec : publishLoop C L (r + 1) c vs with
        | none => exact absurd hrec (ih (r + 1) c)
        | some tr0 => simp [hrec]

theorem linearEmissions_length (qa : QuestionsAnswers) (rev : Bool) :
    ∀ n, (linearEmissions qa rev n).length = 2 * n := by
  intro n
  induction n with
  | zero => rfl
  | succ n ih =>
      unfold linearEmissions at *
      rw [List.range_succ, List.map_append, List.map_cons]
      simp only [List.map_nil, List.flatten_append]
      simp [ih]
      omega

/-- Swap the two members of each adjacent pair of a list. -/
def swapAdjacent : List String → List String
  | a :: b :: rest => b :: a :: swapAdjacent rest
  | l => l

theorem swapAdjacent_flatten_pairs (f g : Nat → String) :
    ∀ l : List Nat,
      swapAdjacent ((l.map (fun k => [f k, g k])).flatten) =
        (l.map (fun k => [g k, f k])).flatten := by
  intro l
  induction l with
  | nil => rfl
  | cons k ks ih =>
      simp only [List.map_cons, List.flatten_cons]
      rw [List.cons_append, List.cons_append, swapAdjacent]
      simp only [List.nil_append]
      rw [ih]
      rfl

/-- The index `AskQuestions` uses at iteration `j` when the loop variable
holds `i`: the random draw in random mode, `i` otherwise. -/
def sessionIndex (p : InterrogationParameters) (pick : Nat → Nat) (i j : Nat) : Nat :=
  if p.mode = InterrogationMode.random then pick j else i

/-- The loop variable for the next iteration (`i = (i + 1) % nbOfQuestions`
in linear mode, unchanged otherwise). -/
def sessionNext (qa : QuestionsAnswers) (p : InterrogationParameters) (pick : Nat → Nat)
    (i j : Nat) : Nat :=
  if p.mode = InterrogationMode.linear then (sessionIndex p pick i j + 1) % qa.GetCount
  else sessionIndex p pick i j

/-- The channel events of a single iteration, in program order: the
question send, then the pacing events, then the answer send. -/
def iterationEvents (p : InterrogationParameters) (question answer : String)
    (input : List String) : List Event :=
  Event.qaSend question :: ((paceStep p input).1 ++ [Event.qaSend answer])

theorem sessionTrace_succ_eq (qa : QuestionsAnswers) (p : InterrogationParameters)
    (pick : Nat → Nat) (n i j : Nat) (input : List String) :
    sessionTrace qa p pick (n + 1) i j input =
      iterationEvents p
          (questionText qa p.IsReversedMode (sessionIndex p pick i j))
          (answerText qa p.IsReversedMode (sessionIndex p pick i j)) input ++
        sessionTrace qa p pick n (sessionNext qa p pick i j) (j + 1) (paceStep p input).2 := by
  rw [sessionTrace]
  simp [iterationEvents, sessionIndex, sessionNext, questionText, answerText,
    InterrogationParameters.IsReversedMode]

/-- C9: every `QuestionsAnswers` value built from `NewQA` by any sequence
of `AddEntry` and `Concatenate` calls satisfies
`len(questions) == len(answers)`, and `GetCount` returns that common
length (`0` for the empty, freshly created set). -/
theorem claim_C9 (qa : QuestionsAnswers) (h : BuiltQA qa) :
    qa.questions.length = qa.answers.length ∧
    qa.GetCount = qa.questions.length ∧
    NewQA.GetCount = 0 :=
  ⟨builtQA_balanced qa h, rfl, rfl⟩

theorem claim_C9_witness :
    BuiltQA ((NewQA.AddEntry "q1" "a1").Concatenate [NewQA.AddEntry "q2" "a2"]) ∧
    (((NewQA.AddEntry "q1" "a1").Concatenate [NewQA.AddEntry "q2" "a2"]).questions.length =
      ((NewQA.AddEntry "q1" "a1").Concatenate [NewQA.AddEntry "q2" "a2"]).answers.length ∧
     ((NewQA.AddEntry "q1" "a1").Concatenate [NewQA.AddEntry "q2" "a2"]).GetCount =
      ((NewQA.AddEntry "q1" "a1").Concatenate [NewQA.AddEntry "q2" "a2"]).questions.length ∧
     NewQA.GetCount = 0) := by
  have hb : BuiltQA ((NewQA.AddEntry "q1" "a1").Concatenate [NewQA.AddEntry "q2" "a2"]) :=
    BuiltQA.concat _ _ (BuiltQA.add _ _ _ BuiltQA.new)
      (by
        intro x hx
        simp at hx
        subst hx
        exact BuiltQA.add _ _ _ BuiltQA.new)
  exact ⟨hb, claim_C9 _ hb⟩

/-- C7: the relay forwards every non-empty received value unchanged, in
order, drops empty strings, and never closes (or sends anything else on)
the outbound channel; when the inbound channel is closed it just returns. -/
theorem claim_C7 (inbound : List String) :
    fanOutChannel inbound = (inbound.filter (fun v => v.length != 0)).map ChanEvent.send ∧
    ChanEvent.close ∉ fanOutChannel inbound := by
  induction inbound with
  | nil => exact ⟨rfl, by simp [fanOutChannel]⟩
  | cons v vs ih =>
      constructor
      · rw [fanOutChannel, List.filter_cons]
        by_cases hv : v.length = 0
        · rw [if_neg (by omega)]
          simp [hv, ih.1]
        · rw [if_pos (by omega)]
          have : (v.length != 0) = true := by simp [hv]
          simp [this, ih.1]
      · rw [fanOutChannel]
        split_ifs
        · intro hmem
          rcases List.mem_cons.mp hmem with h | h
          · cases h
          · exact ih.2 h
        · exact ih.2

/-- C8: non-emptiness is a real precondition.  With a positive count
neither the orchestrator's `j % count` nor the publisher's
`itemsRead % (2*count)` can divide by zero and both functions return
normally; with `count = 0` both modulus operations divide by zero on the
first iteration and neither function returns normally. -/
theorem claim_C8 (qa : QuestionsAnswers) (p : InterrogationParameters) (pick : Nat → Nat)
    (input : List String) :
    (qa.GetCount = 0 → ∀ fuel, 1 ≤ fuel → AskQuestions qa p pick input fuel = none) ∧
    (qa.GetCount = 0 → ∀ maxLoops stream, publishChanToWriter qa.GetCount maxLoops stream = none) ∧
    (0 < qa.GetCount → qa.Balanced →
      (p.mode = InterrogationMode.random → ∀ k, pick k < qa.GetCount) →
      ∀ fuel, p.limit * qa.GetCount + 1 ≤ fuel →
      AskQuestions qa p pick input fuel ≠ none) ∧
    (0 < qa.GetCount → ∀ maxLoops stream,
      publishChanToWriter qa.GetCount maxLoops stream ≠ none) := by
  refine ⟨?_, ?_, ?_, ?_⟩
  · intro hz fuel hfuel
    obtain ⟨f, rfl⟩ : ∃ f, fuel = f + 1 := ⟨fuel - 1, by omega⟩
    rw [AskQuestions, askLoop, if_pos hz]
  · intro hz maxLoops stream
    rw [publishChanToWriter, hz, publishLoop_qcount_zero]
    rfl
  · intro hC hbal hpick fuel hfuel
    rw [AskQuestions, askLoop_eq_sessionTrace qa p pick hC hbal hpick
      (p.limit * qa.GetCount) 0 0 0 input fuel (by omega) (by unfold loopInv; simp) hC
      (by omega)]
    simp
  · intro hC maxLoops stream
    rw [publishChanToWriter]
    cases h : publishLoop qa.GetCount maxLoops 0 0 stream with
    | none => exact absurd h (publishLoop_isSome qa.GetCount maxLoops hC stream 0 0)
    | some tr => simp

theorem claim_C8_witness :
    (NewQA.GetCount = 0 ∧
      AskQuestions NewQA defaultParameters (fun _ => 0) [] 5 = none ∧
      publishChanToWriter NewQA.GetCount 1 ["x"] = none) ∧
    (0 < (QuestionsAnswers.mk ["Q1"] ["A1"]).GetCount ∧
      AskQuestions (QuestionsAnswers.mk ["Q1"] ["A1"]) defaultParameters (fun _ => 0) [] 2 ≠ none ∧
      publishChanToWriter (QuestionsAnswers.mk ["Q1"] ["A1"]).GetCount 1 ["x"] ≠ none) := by
  refine ⟨⟨by decide, ?_, ?_⟩, ⟨by decide, ?_, ?_⟩⟩
  · exact (claim_C8 NewQA defaultParameters (fun _ => 0) []).1 (by decide) 5 (by decide)
  · exact (claim_C8 NewQA defaultParameters (fun _ => 0) []).2.1 (by decide) 1 ["x"]
  · exact (claim_C8 (QuestionsAnswers.mk ["Q1"] ["A1"]) defaultParameters (fun _ => 0) []).2.2.1
      (by decide) (by decide) (fun _ k => by decide) 2 (by decide)
  · exact (claim_C8 (QuestionsAnswers.mk ["Q1"] ["A1"]) defaultParameters (fun _ => 0) []).2.2.2
      (by decide) 1 ["x"]

/-- A two-question fixture used by the witnesses. -/
def exampleQA : QuestionsAnswers := { questions := ["Q1", "Q2"], answers := ["A1", "A2"] }

/-- A linear, non-interactive session configuration with limit 1, used by
the witnesses. -/
def exampleLinearParameters : InterrogationParameters :=
  { interactive := false
    wait := 1000000
    mode := InterrogationMode.linear
    subsections := ""
    limit := 1
    reversed := false }

/-- C1: in linear mode the session performs exactly `limit * count`
iterations, and the pairs sent on `qachan` are, in order, the pairs at
indices `0, 1, …, count-1, 0, 1, …` (iteration `k` uses index
`k mod count`), i.e. `limit` full passes in original order. -/
theorem claim_C1 (qa : QuestionsAnswers) (p : InterrogationParameters) (pick : Nat → Nat)
    (input : List String) (fuel : Nat)
    (hC : 0 < qa.GetCount) (hbal : qa.Balanced)
    (hmode : p.mode = InterrogationMode.linear)
    (hfuel : p.limit * qa.GetCount + 1 ≤ fuel) :
    ∃ tr, AskQuestions qa p pick input fuel = some tr ∧
      tr.filterMap qaText = linearEmissions qa p.IsReversedMode (p.limit * qa.GetCount) ∧
      (tr.filterMap qaText).length = 2 * (p.limit * qa.GetCount) := by
  have hpick : p.mode = InterrogationMode.random → ∀ k, pick k < qa.GetCount := by
    intro hm
    rw [hmode] at hm
    cases hm
  have hchar := askLoop_eq_sessionTrace qa p pick hC hbal hpick
    (p.limit * qa.GetCount) 0 0 0 input fuel (by omega) (by unfold loopInv; simp) hC (by omega)
  refine ⟨sessionTrace qa p pick (p.limit * qa.GetCount) 0 0 input, ?_, ?_, ?_⟩
  · rw [AskQuestions]
    exact hchar
  · rw [sessionTrace_linear_qaSends qa p pick hmode _ 0 0 input hC]
    unfold linearEmissions
    simp
  · rw [sessionTrace_linear_qaSends qa p pick hmode _ 0 0 input hC]
    have hlen := linearEmissions_length qa p.IsReversedMode (p.limit * qa.GetCount)
    unfold linearEmissions at hlen
    simpa using hlen

theorem claim_C1_witness :
    0 < exampleQA.GetCount ∧ exampleQA.Balanced ∧
    exampleLinearParameters.mode = InterrogationMode.linear ∧
    exampleLinearParameters.limit * exampleQA.GetCount + 1 ≤ 3 ∧
    (∃ tr, AskQuestions exampleQA exampleLinearParameters (fun _ => 0) [] 3 = some tr ∧
      tr.filterMap qaText =
        linearEmissions exampleQA exampleLinearParameters.IsReversedMode
          (exampleLinearParameters.limit * exampleQA.GetCount) ∧
      (tr.filterMap qaText).length =
        2 * (exampleLinearParameters.limit * exampleQA.GetCount)) :=
  ⟨by decide, by decide, by decide, by decide,
    claim_C1 exampleQA exampleLinearParameters (fun _ => 0) [] 3
      (by decide) (by decide) (by decide) (by decide)⟩

/-- C3: every session over a non-empty balanced set runs `limit * count`
iterations and then closes `qachan` and `command`, in that order, exactly
once each; nothing follows the closes, and the number of `qachan` sends is
the even number `2 * limit * count`, so no partial pair is emitted. -/
theorem claim_C3 (qa : QuestionsAnswers) (p : InterrogationParameters) (pick : Nat → Nat)
    (input : List String) (fuel : Nat)
    (hC : 0 < qa.GetCount) (hbal : qa.Balanced)
    (hpick : p.mode = InterrogationMode.random → ∀ k, pick k < qa.GetCount)
    (hfuel : p.limit * qa.GetCount + 1 ≤ fuel) :
    ∃ tr, AskQuestions qa p pick input fuel = some tr ∧
      tr = sessionBody qa p pick (p.limit * qa.GetCount) 0 0 input ++
        [Event.closeQA, Event.closeCmd] ∧
      (∀ e ∈ sessionBody qa p pick (p.limit * qa.GetCount) 0 0 input, isClose e = false) ∧
      tr.count Event.closeQA = 1 ∧
      tr.count Event.closeCmd = 1 ∧
      tr.countP (fun e => isQASend e) = 2 * (p.limit * qa.GetCount) := by
  have hchar := askLoop_eq_sessionTrace qa p pick hC hbal hpick
    (p.limit * qa.GetCount) 0 0 0 input fuel (by omega) (by unfold loopInv; simp) hC (by omega)
  refine ⟨sessionTrace qa p pick (p.limit * qa.GetCount) 0 0 input, hchar, ?_, ?_, ?_, ?_, ?_⟩
  · exact sessionTrace_eq_body qa p pick _ 0 0 input
  · exact sessionBody_close_free qa p pick _ 0 0 input
  · rw [sessionTrace_eq_body qa p pick _ 0 0 input, List.count_append]
    have h0 : (sessionBody qa p pick (p.limit * qa.GetCount) 0 0 input).count Event.closeQA = 0 := by
      rw [List.count_eq_zero]
      intro hmem
      have := sessionBody_close_free qa p pick _ 0 0 input _ hmem
      simp [isClose] at this
    rw [h0]
    rfl
  · rw [sessionTrace_eq_body qa p pick _ 0 0 input, List.count_append]
    have h0 : (sessionBody qa p pick (p.limit * qa.GetCount) 0 0 input).count Event.closeCmd = 0 := by
      rw [List.count_eq_zero]
      intro hmem
      have := sessionBody_close_free qa p pick _ 0 0 input _ hmem
      simp [isClose] at this
    rw [h0]
    rfl
  · rw [sessionTrace_eq_body qa p pick _ 0 0 input, List.countP_append,
      sessionBody_countQA qa p pick _ 0 0 input]
    rfl

theorem claim_C3_witness :
    0 < exampleQA.GetCount ∧ exampleQA.Balanced ∧
    exampleLinearParameters.limit * exampleQA.GetCount + 1 ≤ 3 ∧
    (∃ tr, AskQuestions exampleQA exampleLinearParameters (fun _ => 0) [] 3 = some tr ∧
      tr = sessionBody exampleQA exampleLinearParameters (fun _ => 0)
          (exampleLinearParameters.limit * exampleQA.GetCount) 0 0 [] ++
        [Event.closeQA, Event.closeCmd] ∧
      (∀ e ∈ sessionBody exampleQA exampleLinearParameters (fun _ => 0)
          (exampleLinearParameters.limit * exampleQA.GetCount) 0 0 [], isClose e = false) ∧
      tr.count Event.closeQA = 1 ∧
      tr.count Event.closeCmd = 1 ∧
      tr.countP (fun e => isQASend e) =
        2 * (exampleLinearParameters.limit * exampleQA.GetCount)) :=
  ⟨by decide, by decide, by decide,
    claim_C3 exampleQA exampleLinearParameters (fun _ => 0) [] 3
      (by decide) (by decide) (fun hm => by cases hm) (by decide)⟩

/-- C4: per iteration the orchestrator sends the question text on
`qachan`, then paces — a timed sleep when non-interactive; when
interactive, one line is read from the input stream and forwarded on the
command channel only if a line was actually read — and then sends the
answer text on `qachan`. -/
theorem claim_C4 (qa : QuestionsAnswers) (p : InterrogationParameters) (pick : Nat → Nat)
    (input : List String) (fuel : Nat)
    (hC : 0 < qa.GetCount) (hbal : qa.Balanced)
    (hpick : p.mode = InterrogationMode.random → ∀ k, pick k < qa.GetCount)
    (hfuel : p.limit * qa.GetCount + 1 ≤ fuel) :
    AskQuestions qa p pick input fuel =
      some (sessionTrace qa p pick (p.limit * qa.GetCount) 0 0 input) ∧
    (∀ (n i j : Nat) (inp : List String),
      sessionTrace qa p pick (n + 1) i j inp =
        iterationEvents p
            (questionText qa p.IsReversedMode (sessionIndex p pick i j))
            (answerText qa p.IsReversedMode (sessionIndex p pick i j)) inp ++
          sessionTrace qa p pick n (sessionNext qa p pick i j) (j + 1) (paceStep p inp).2) ∧
    (∀ (question answer : String) (inp : List String),
      iterationEvents p question answer inp =
        Event.qaSend question :: ((paceStep p inp).1 ++ [Event.qaSend answer])) ∧
    (p.interactive = false → ∀ inp, paceStep p inp = ([Event.sleep], inp)) ∧
    (p.interactive = true → ∀ l rest, paceStep p (l :: rest) = ([Event.cmdSend l], rest)) ∧
    (p.interactive = true → paceStep p [] = ([], [])) := by
  refine ⟨?_, ?_, ?_, ?_, ?_, ?_⟩
  · rw [AskQuestions]
    exact askLoop_eq_sessionTrace qa p pick hC hbal hpick
      (p.limit * qa.GetCount) 0 0 0 input fuel (by omega) (by unfold loopInv; simp) hC (by omega)
  · intro n i j inp
    exact sessionTrace_succ_eq qa p pick n i j inp
  · intro question answer inp
    rfl
  · intro hni inp
    simp [paceStep, hni]
  · intro hint l rest
    simp [paceStep, hint]
  · intro hint
    simp [paceStep, hint]

theorem claim_C4_witness :
    0 < exampleQA.GetCount ∧ exampleQA.Balanced ∧
    exampleLinearParameters.limit * exampleQA.GetCount + 1 ≤ 3 ∧
    (AskQuestions exampleQA exampleLinearParameters (fun _ => 0) [] 3 =
      some (sessionTrace exampleQA exampleLinearParameters (fun _ => 0)
        (exampleLinearParameters.limit * exampleQA.GetCount) 0 0 []) ∧
     (exampleLinearParameters.interactive = false →
       ∀ inp, paceStep exampleLinearParameters inp = ([Event.sleep], inp))) :=
  ⟨by decide, by decide, by decide,
    (claim_C4 exampleQA exampleLinearParameters (fun _ => 0) [] 3
      (by decide) (by decide) (fun hm => by cases hm) (by decide)).1,
    (claim_C4 exampleQA exampleLinearParameters (fun _ => 0) [] 3
      (by decide) (by decide) (fun hm => by cases hm) (by decide)).2.2.2.1⟩

theorem linearEmissions_swap (qa : QuestionsAnswers) (n : Nat) :
    linearEmissions qa true n = swapAdjacent (linearEmissions qa false n) := by
  unfold linearEmissions
  rw [swapAdjacent_flatten_pairs (fun k => questionText qa false (k % qa.GetCount))
    (fun k => answerText qa false (k % qa.GetCount)) (List.range n)]
  have hq : ∀ idx, questionText qa true idx = answerText qa false idx := fun idx => rfl
  have ha : ∀ idx, answerText qa true idx = questionText qa false idx := fun idx => rfl
  simp only [hq, ha]

/-- C5: under linear mode, a reversed run over the same index sequence
emits each pair with the roles of the two fields exactly swapped relative
to the non-reversed run: the text sent as the question is the stored
answer and vice versa, with index selection unchanged. -/
theorem claim_C5 (qa : QuestionsAnswers) (p : InterrogationParameters) (pick : Nat → Nat)
    (input : List String) (fuel : Nat)
    (hC : 0 < qa.GetCount) (hbal : qa.Balanced)
    (hmode : p.mode = InterrogationMode.linear)
    (hfuel : p.limit * qa.GetCount + 1 ≤ fuel) :
    ∃ tr0 tr1,
      AskQuestions qa { p with reversed := false } pick input fuel = some tr0 ∧
      AskQuestions qa { p with reversed := true } pick input fuel = some tr1 ∧
      tr0.filterMap qaText = linearEmissions qa false (p.limit * qa.GetCount) ∧
      tr1.filterMap qaText = linearEmissions qa true (p.limit * qa.GetCount) ∧
      tr1.filterMap qaText = swapAdjacent (tr0.filterMap qaText) := by
  have hpick0 : ∀ p' : InterrogationParameters, p'.mode = InterrogationMode.linear →
      (p'.mode = InterrogationMode.random → ∀ k, pick k < qa.GetCount) := by
    intro p' hm' hr
    rw [hm'] at hr
    cases hr
  have hm0 : ({ p with reversed := false } : InterrogationParameters).mode =
      InterrogationMode.linear := hmode
  have hm1 : ({ p with reversed := true } : InterrogationParameters).mode =
      InterrogationMode.linear := hmode
  have hchar0 := askLoop_eq_sessionTrace qa { p with reversed := false } pick hC hbal
    (hpick0 _ hm0) (p.limit * qa.GetCount) 0 0 0 input fuel (Nat.zero_add _)
    (by unfold loopInv; simp) hC hfuel
  have hchar1 := askLoop_eq_sessionTrace qa { p with reversed := true } pick hC hbal
    (hpick0 _ hm1) (p.limit * qa.GetCount) 0 0 0 input fuel (Nat.zero_add _)
    (by unfold loopInv; simp) hC hfuel
  refine ⟨_, _, hchar0, hchar1, ?_, ?_, ?_⟩
  · rw [sessionTrace_linear_qaSends qa { p with reversed := false } pick hm0 _ 0 0 input hC]
    unfold linearEmissions
    simp [InterrogationParameters.IsReversedMode]
  · rw [sessionTrace_linear_qaSends qa { p with reversed := true } pick hm1 _ 0 0 input hC]
    unfold linearEmissions
    simp [InterrogationParameters.IsReversedMode]
  · rw [sessionTrace_linear_qaSends qa { p with reversed := false } pick hm0 _ 0 0 input hC,
      sessionTrace_linear_qaSends qa { p with reversed := true } pick hm1 _ 0 0 input hC]
    have h1 : linearEmissions qa true (p.limit * qa.GetCount) =
        swapAdjacent (linearEmissions qa false (p.limit * qa.GetCount)) :=
      linearEmissions_swap qa _
    unfold linearEmissions at h1
    simpa [InterrogationParameters.IsReversedMode] using h1

theorem claim_C5_witness :
    0 < exampleQA.GetCount ∧ exampleQA.Balanced ∧
    exampleLinearParameters.mode = InterrogationMode.linear ∧
    exampleLinearParameters.limit * exampleQA.GetCount + 1 ≤ 3 ∧
    (∃ tr0 tr1,
      AskQuestions exampleQA { exampleLinearParameters with reversed := false }
        (fun _ => 0) [] 3 = some tr0 ∧
      AskQuestions exampleQA { exampleLinearParameters with reversed := true }
        (fun _ => 0) [] 3 = some tr1 ∧
      tr0.filterMap qaText = linearEmissions exampleQA false
        (exampleLinearParameters.limit * exampleQA.GetCount) ∧
      tr1.filterMap qaText = linearEmissions exampleQA true
        (exampleLinearParameters.limit * exampleQA.GetCount) ∧
      tr1.filterMap qaText = swapAdjacent (tr0.filterMap qaText)) :=
  ⟨by decide, by decide, by decide, by decide,
    claim_C5 exampleQA exampleLinearParameters (fun _ => 0) [] 3
      (by decide) (by decide) (by decide) (by decide)⟩

/-- C2: the publisher prints the question-count header first; given enough
received items it prints exactly `L` loop banners and `L*C` answer lines
(one per completed pair) and ends with the limit-reached notice,
independently of whether the channel is still open; on any received stream
it never exceeds `L` banners or `L*C` pairs. -/
theorem claim_C2 (C L : Nat) (hC : 1 ≤ C) (hL : 1 ≤ L) :
    (∀ stream : List String, 2 * C * L ≤ stream.length →
      ∃ tr, publishChanToWriter C L stream = some tr ∧
        tr.head? = some (OutEvent.header C) ∧
        tr.countP (fun e => isBanner e) = L ∧
        tr.countP (fun e => isAnswerLine e) = C * L ∧
        tr.countP (fun e => isNotice e) = 1 ∧
        tr.countP (fun e => isHeader e) = 1 ∧
        tr.getLast? = some (OutEvent.limitNotice L)) ∧
    (∀ (stream : List String) (tr : List OutEvent),
      publishChanToWriter C L stream = some tr →
        tr.countP (fun e => isBanner e) ≤ L ∧
        tr.countP (fun e => isAnswerLine e) ≤ C * L) := by
  constructor
  · intro stream hlen
    obtain ⟨tr0, htr0, hb0, ha0, hn0, hh0, hl0⟩ :=
      publishLoop_main C L (by omega) L 0 0 stream (by omega) (by simp) hlen
    refine ⟨OutEvent.header C :: tr0, ?_, rfl, ?_, ?_, ?_, ?_, ?_⟩
    · rw [publishChanToWriter, htr0]
      rfl
    · rw [List.countP_cons, hb0]
      simp [isBanner]
    · rw [List.countP_cons, ha0]
      simp [isAnswerLine]
    · rw [List.countP_cons, hn0]
      simp [isNotice]
    · rw [List.countP_cons, hh0]
      simp [isHeader]
    · have hne : tr0 ≠ [] := by
        intro hnil
        rw [hnil] at hl0
        cases hl0
      rw [show (OutEvent.header C :: tr0) = [OutEvent.header C] ++ tr0 from rfl,
        List.getLast?_append, hl0]
      rfl
  · intro stream tr h
    rw [publishChanToWriter] at h
    cases hrec : publishLoop C L 0 0 stream with
    | none => rw [hrec] at h; cases h
    | some tr0 =>
        rw [hrec] at h
        simp only [Option.map_some, Option.some.injEq] at h
        subst h
        constructor
        · rw [List.countP_cons]
          have hb := publishLoop_banners_le C L stream 0 0 tr0 (by omega) hrec
          have hd : isBanner (OutEvent.header C) = false := rfl
          rw [hd]
          simp only [Bool.false_eq_true, if_false, Nat.add_zero]
          omega
        · rw [List.countP_cons]
          have hd : isAnswerLine (OutEvent.header C) = false := rfl
          rw [hd]
          simp only [Bool.false_eq_true, if_false, Nat.add_zero]
          by_cases hlong : 2 * C * L ≤ stream.length
          · obtain ⟨tr1, htr1, _, ha1, _, _, _⟩ :=
              publishLoop_main C L (by omega) L 0 0 stream (by omega) (by simp) hlong
            rw [htr1] at hrec
            cases hrec
            omega
          · have ha := publishLoop_answers_le C L stream 0 0 tr0 hrec
            have hCL : 2 * C * L = 2 * (C * L) := by ring
            simp only [Nat.zero_mod, Nat.add_zero] at ha
            omega

theorem claim_C2_witness :
    1 ≤ 1 ∧
    2 * 1 * 1 ≤ (["q", "a"] : List String).length ∧
    (∃ tr, publishChanToWriter 1 1 ["q", "a"] = some tr ∧
      tr.head? = some (OutEvent.header 1) ∧
      tr.countP (fun e => isBanner e) = 1 ∧
      tr.countP (fun e => isAnswerLine e) = 1 * 1 ∧
      tr.countP (fun e => isNotice e) = 1 ∧
      tr.countP (fun e => isHeader e) = 1 ∧
      tr.getLast? = some (OutEvent.limitNotice 1)) :=
  ⟨by decide, by decide,
    (claim_C2 1 1 (by decide) (by decide)).1 ["q", "a"] (by decide)⟩

/-- C6 counterexample: the received value is passed to `fmt.Fprintf` as
the format string with no operands (`lib.go` 314/317), so a value
containing `%` is not written verbatim: the odd-position value `50%`
reaches the publisher as a question, but the text written for it is
`50%!(NOVERB)`, and an answer value `a%` is not written as
`     --> a%` + newline either. -/
theorem claim_C6_counterexample :
    publishChanToWriter 1 1 ["50%", "a"] =
      some [OutEvent.header 1, OutEvent.banner 1 1, OutEvent.questionLine "50%",
        OutEvent.answerLine "a", OutEvent.separator, OutEvent.limitNotice 1] ∧
    render (OutEvent.questionLine "50%") = "50%!(NOVERB)" ∧
    render (OutEvent.questionLine "50%") ≠ "50%" ∧
    render (OutEvent.answerLine "a%") ≠ "     --> " ++ "a%" ++ "\n" := by
  refine ⟨by decide, by decide, by decide, by decide⟩

/-- C6 (amended): every value the publisher receives is dispatched by its
position parity — odd-position values as the question line, even-position
values as the answer line plus a dash separator — and the item part of the
whole output is exactly this formatting applied to the consumed prefix of
the stream.  The text written for a value is its zero-operand `fmt`
rendering (the value is used as the format string), which is the value
verbatim (resp. `     --> ` + value + newline) whenever the value contains
no `%`; values containing `%` are subject to `fmt`'s missing-operand
artifacts instead of verbatim output. -/
theorem claim_C6_amended (C L : Nat) :
    (∀ (stream : List String) (tr : List OutEvent),
      publishChanToWriter C L stream = some tr →
      ∃ k, tr.filter (fun e => isItemEvent e) = emitSeq 0 (stream.take k)) ∧
    (∀ (r : Nat) (l : List String) (v : String),
      emitSeq r (v :: l) = emitItem (r + 1) v ++ emitSeq (r + 1) l) ∧
    (∀ (r : Nat) (v : String), r % 2 = 1 →
      emitItem r v = [OutEvent.questionLine v] ∧
      render (OutEvent.questionLine v) = goDoPrintf v ∧
      (¬ '%' ∈ v.toList → render (OutEvent.questionLine v) = v)) ∧
    (∀ (r : Nat) (v : String), r % 2 = 0 →
      emitItem r v = [OutEvent.answerLine v, OutEvent.separator] ∧
      render (OutEvent.answerLine v) = goDoPrintf ("     --> " ++ v ++ "\n") ∧
      (¬ '%' ∈ v.toList →
        render (OutEvent.answerLine v) = "     --> " ++ v ++ "\n") ∧
      render OutEvent.separator = "---------------------------\n") := by
  refine ⟨?_, ?_, ?_, ?_⟩
  · intro stream tr h
    rw [publishChanToWriter] at h
    cases hrec : publishLoop C L 0 0 stream with
    | none => rw [hrec] at h; cases h
    | some tr0 =>
        rw [hrec] at h
        simp only [Option.map_some, Option.some.injEq] at h
        subst h
        obtain ⟨k, hk⟩ := publishLoop_items C L stream 0 0 tr0 hrec
        refine ⟨k, ?_⟩
        rw [List.filter_cons]
        have hh : isItemEvent (OutEvent.header C) = false := rfl
        rw [hh]
        simpa using hk
  · intro r l v
    rfl
  · intro r v hodd
    refine ⟨by rw [emitItem, if_pos hodd], rfl, ?_⟩
    intro hv
    show goDoPrintf v = v
    exact goDoPrintf_no_percent v hv
  · intro r v heven
    refine ⟨by rw [emitItem, if_neg (by omega)], rfl, ?_, rfl⟩
    intro hv
    show goDoPrintf ("     --> " ++ v ++ "\n") = "     --> " ++ v ++ "\n"
    apply goDoPrintf_no_percent
    intro hmem
    have hsplit : ("     --> " ++ v ++ "\n").toList =
        "     --> ".toList ++ v.toList ++ "\n".toList := by
      show ("     --> " ++ v ++ "\n").data = "     --> ".data ++ v.data ++ "\n".data
      simp
    rw [hsplit] at hmem
    simp only [List.mem_append] at hmem
    rcases hmem with (hmem | hmem) | hmem
    · revert hmem
      decide
    · exact hv hmem
    · revert hmem
      decide

theorem claim_C6_amended_witness :
    (∃ k, ((publishChanToWriter 1 1 ["q", "a"]).getD []).filter (fun e => isItemEvent e) =
      emitSeq 0 ((["q", "a"] : List String).take k)) ∧
    (1 % 2 = 1 ∧ emitItem 1 "q" = [OutEvent.questionLine "q"] ∧
      (¬ '%' ∈ "q".toList) ∧ render (OutEvent.questionLine "q") = "q") ∧
    (2 % 2 = 0 ∧ emitItem 2 "a" = [OutEvent.answerLine "a", OutEvent.separator] ∧
      (¬ '%' ∈ "a".toList) ∧ render (OutEvent.answerLine "a") = "     --> " ++ "a" ++ "\n" ∧
      render OutEvent.separator = "---------------------------\n") := by
  refine ⟨?_, ⟨by decide, ?_, by decide, ?_⟩, ⟨by decide, ?_, by decide, ?_, ?_⟩⟩
  · exact (claim_C6_amended 1 1).1 ["q", "a"]
      ((publishChanToWriter 1 1 ["q", "a"]).getD []) (by decide)
  · exact ((claim_C6_amended 1 1).2.2.1 1 "q" (by decide)).1
  · exact ((claim_C6_amended 1 1).2.2.1 1 "q" (by decide)).2.2 (by decide)
  · exact ((claim_C6_amended 1 1).2.2.2 2 "a" (by decide)).1
  · exact ((claim_C6_amended 1 1).2.2.2 2 "a" (by decide)).2.2.1 (by decide)
  · exact ((claim_C6_amended 1 1).2.2.2 2 "a" (by decide)).2.2.2

/-- The options whose case in `Parse` reads `args[i+1]`. -/
def needsValue (s : String) : Bool :=
  s == "-t" || s == "-m" || s == "-l"

/-- Refutation of C10 as stated: `"-t"` is the final element of
`["-t", "-t"]`, yet `Parse` does not panic on it — the first `-t` consumes
the second as its (non-integer) argument and `Parse` returns an error
value. -/
theorem claim_C10_counterexample :
    (["-t", "-t"] : List String).getLast? = some "-t" ∧
    Parse ["-t", "-t"] ≠ none ∧
    Parse ["-t", "-t"] =
      some (Except.error
        "The time you set (-t) is not an integer. Please set the time in milliseconds.") := by
  refine ⟨rfl, ?_, ?_⟩
  · intro h
    rw [show Parse ["-t", "-t"] =
        some (Except.error
          "The time you set (-t) is not an integer. Please set the time in milliseconds.")
      from rfl] at h
    cases h
  · rfl

theorem parseLoop_cons_i (rest : List String) (p : InterrogationParameters) :
    parseLoop ("-i" :: rest) p = parseLoop rest { p with interactive := true } := rfl

theorem parseLoop_cons_s (rest : List String) (p : InterrogationParameters) :
    parseLoop ("-s" :: rest) p = parseLoop rest { p with mode := InterrogationMode.summary } := rfl

theorem parseLoop_cons_r (rest : List String) (p : InterrogationParameters) :
    parseLoop ("-r" :: rest) p = parseLoop rest { p with reversed := true } := rfl

theorem parseLoop_cons_t_nil (p : InterrogationParameters) :
    parseLoop ["-t"] p = none := rfl

theorem parseLoop_cons_t_cons (v : String) (rest : List String) (p : InterrogationParameters) :
    parseLoop ("-t" :: v :: rest) p =
      match goAtoi v with
      | none => some (Except.error
          ("The time you set (" ++ v ++ ") is not an integer. Please set the time in milliseconds."))
      | some value => parseLoop (v :: rest) { p with wait := value * 1000000 } := rfl

theorem parseLoop_cons_m_nil (p : InterrogationParameters) :
    parseLoop ["-m"] p = none := rfl

theorem parseLoop_cons_m_cons (v : String) (rest : List String) (p : InterrogationParameters) :
    parseLoop ("-m" :: v :: rest) p =
      parseLoop (v :: rest)
        (if v = "linear" then { p with mode := InterrogationMode.linear } else p) := rfl

theorem parseLoop_cons_l_nil (p : InterrogationParameters) :
    parseLoop ["-l"] p = none := rfl

theorem parseLoop_cons_l_cons (v : String) (rest : List String) (p : InterrogationParameters) :
    parseLoop ("-l" :: v :: rest) p =
      parseLoop (v :: rest) { p with subsections := v } := rfl

theorem parseLoop_cons_other (opt : String) (rest : List String) (p : InterrogationParameters)
    (h1 : opt ≠ "-i") (h2 : opt ≠ "-t") (h3 : opt ≠ "-m") (h4 : opt ≠ "-s")
    (h5 : opt ≠ "-l") (h6 : opt ≠ "-r") :
    parseLoop (opt :: rest) p = parseLoop rest p := by
  rw [parseLoop.eq_def]
  split
  · next heq => simp at heq
  · next head tail heq =>
      injection heq with hh ht
      subst hh
      subst ht
      split
      · exact absurd rfl h1
      · exact absurd rfl h2
      · exact absurd rfl h3
      · exact absurd rfl h4
      · exact absurd rfl h5
      · exact absurd rfl h6
      · rfl

/-- When the final element of the argument list is `-t`, `-m` or `-l` and
every earlier `-t` occurrence is followed by a string `Atoi` accepts (so no
early error return happens first), the loop reaches the final element and
evaluates `args[i+1]` out of range. -/
theorem parseLoop_panic :
    ∀ (args : List String) (p : InterrogationParameters),
      (∃ lastOpt, args.getLast? = some lastOpt ∧ needsValue lastOpt = true) →
      (∀ i v w, args.get? i = some v → v = "-t" → args.get? (i + 1) = some w →
        goAtoi w ≠ none) →
      parseLoop args p = none := by
  intro args
  induction args with
  | nil =>
      intro p hlast _
      obtain ⟨l, hl, _⟩ := hlast
      cases hl
  | cons opt rest ih =>
      intro p hlast hvalid
      have hvalid' : ∀ i v w, rest.get? i = some v → v = "-t" →
          rest.get? (i + 1) = some w → goAtoi w ≠ none := by
        intro i v w hiv hv hw
        exact hvalid (i + 1) v w hiv hv hw
      cases rest with
      | nil =>
          obtain ⟨l, hl, hneed⟩ := hlast
          have hlo : opt = l := by simpa using hl
          subst hlo
          have hcases : opt = "-t" ∨ opt = "-m" ∨ opt = "-l" := by
            simp only [needsValue, Bool.or_eq_true, beq_iff_eq] at hneed
            tauto
          rcases hcases with h | h | h <;> subst h
          · exact parseLoop_cons_t_nil p
          · exact parseLoop_cons_m_nil p
          · exact parseLoop_cons_l_nil p
      | cons v rest2 =>
          have hlast' : ∃ l, (v :: rest2).getLast? = some l ∧ needsValue l = true := by
            obtain ⟨l, hl, hneed⟩ := hlast
            exact ⟨l, by rw [List.getLast?_cons_cons] at hl; exact hl, hneed⟩
          by_cases hoi : opt = "-i"
          · subst hoi
            rw [parseLoop_cons_i]
            exact ih _ hlast' hvalid'
          by_cases hos : opt = "-s"
          · subst hos
            rw [parseLoop_cons_s]
            exact ih _ hlast' hvalid'
          by_cases hor : opt = "-r"
          · subst hor
            rw [parseLoop_cons_r]
            exact ih _ hlast' hvalid'
          by_cases hot : opt = "-t"
          · subst hot
            have hA : goAtoi v ≠ none := hvalid 0 "-t" v rfl rfl rfl
            cases hg : goAtoi v with
            | none => exact absurd hg hA
            | some value =>
                rw [parseLoop_cons_t_cons]
                simp only [hg]
                exact ih _ hlast' hvalid'
          by_cases hom : opt = "-m"
          · subst hom
            rw [parseLoop_cons_m_cons]
            exact ih _ hlast' hvalid'
          by_cases hol : opt = "-l"
          · subst hol
            rw [parseLoop_cons_l_cons]
            exact ih _ hlast' hvalid'
          · rw [parseLoop_cons_other opt _ p hoi hot hom hos hol hor]
            exact ih _ hlast' hvalid'

/-- When every `-t`, `-m` or `-l` occurrence is followed by a further
element, the loop never indexes out of range: it returns normally, and the
result is an error only when some `-t` argument is rejected by `Atoi`. -/
theorem parseLoop_no_panic :
    ∀ (args : List String) (p : InterrogationParameters),
      (∀ i v, args.get? i = some v → needsValue v = true → i + 1 < args.length) →
      parseLoop args p ≠ none ∧
      (∀ msg, parseLoop args p = some (Except.error msg) →
        ∃ i v w, args.get? i = some v ∧ v = "-t" ∧ args.get? (i + 1) = some w ∧
          goAtoi w = none) := by
  intro args
  induction args with
  | nil =>
      intro p _
      refine ⟨by rw [parseLoop]; simp, ?_⟩
      intro msg h
      rw [parseLoop] at h
      simp at h
  | cons opt rest ih =>
      intro p hcond
      have hcond' : ∀ i v, rest.get? i = some v → needsValue v = true →
          i + 1 < rest.length := by
        intro i v hiv hv
        have := hcond (i + 1) v hiv hv
        simp only [List.length_cons] at this
        omega
      have lift : (∃ i v w, rest.get? i = some v ∧ v = "-t" ∧
            rest.get? (i + 1) = some w ∧ goAtoi w = none) →
          ∃ i v w, (opt :: rest).get? i = some v ∧ v = "-t" ∧
            (opt :: rest).get? (i + 1) = some w ∧ goAtoi w = none := by
        rintro ⟨i, v, w, hiv, hv, hw, hg⟩
        exact ⟨i + 1, v, w, hiv, hv, hw, hg⟩
      by_cases hoi : opt = "-i"
      · subst hoi
        rw [parseLoop_cons_i]
        obtain ⟨h1, h2⟩ := ih _ hcond'
        exact ⟨h1, fun msg hmsg => lift (h2 msg hmsg)⟩
      by_cases hos : opt = "-s"
      · subst hos
        rw [parseLoop_cons_s]
        obtain ⟨h1, h2⟩ := ih _ hcond'
        exact ⟨h1, fun msg hmsg => lift (h2 msg hmsg)⟩
      by_cases hor : opt = "-r"
      · subst hor
        rw [parseLoop_cons_r]
        obtain ⟨h1, h2⟩ := ih _ hcond'
        exact ⟨h1, fun msg hmsg => lift (h2 msg hmsg)⟩
      by_cases hot : opt = "-t"
      · subst hot
        have hlen := hcond 0 "-t" rfl (by decide)
        cases rest with
        | nil => exact absurd hlen (by simp)
        | cons w rest2 =>
            cases hg : goAtoi w with
            | none =>
                rw [parseLoop_cons_t_cons]
                simp only [hg]
                refine ⟨by simp, ?_⟩
                intro msg _
                exact ⟨0, "-t", w, rfl, rfl, rfl, hg⟩
            | some value =>
                rw [parseLoop_cons_t_cons]
                simp only [hg]
                obtain ⟨h1, h2⟩ := ih _ hcond'
                exact ⟨h1, fun msg hmsg => lift (h2 msg hmsg)⟩
      by_cases hom : opt = "-m"
      · subst hom
        have hlen := hcond 0 "-m" rfl (by decide)
        cases rest with
        | nil => exact absurd hlen (by simp)
        | cons w rest2 =>
            rw [parseLoop_cons_m_cons]
            obtain ⟨h1, h2⟩ := ih _ hcond'
            exact ⟨h1, fun msg hmsg => lift (h2 msg hmsg)⟩
      by_cases hol : opt = "-l"
      · subst hol
        have hlen := hcond 0 "-l" rfl (by decide)
        cases rest with
        | nil => exact absurd hlen (by simp)
        | cons w rest2 =>
            rw [parseLoop_cons_l_cons]
            obtain ⟨h1, h2⟩ := ih _ hcond'
            exact ⟨h1, fun msg hmsg => lift (h2 msg hmsg)⟩
      · rw [parseLoop_cons_other opt _ p hoi hot hom hos hol hor]
        obtain ⟨h1, h2⟩ := ih _ hcond'
        exact ⟨h1, fun msg hmsg => lift (h2 msg hmsg)⟩

/-- C10 (amended): whenever `-t`, `-m` or `-l` is the final element of
`args` and every earlier `-t` is followed by a string `Atoi` accepts (so
that no error return pre-empts the loop), `Parse` evaluates `args[i+1]`
out of bounds and panics; and for every argument list in which each of
these flags is followed by a value, `Parse` returns normally, with an
error value only when some `-t` argument is not an integer. -/
theorem claim_C10_amended :
    (∀ args : List String,
      (∃ lastOpt, args.getLast? = some lastOpt ∧ needsValue lastOpt = true) →
      (∀ i v w, args.get? i = some v → v = "-t" → args.get? (i + 1) = some w →
        goAtoi w ≠ none) →
      Parse args = none) ∧
    (∀ args : List String,
      (∀ i v, args.get? i = some v → needsValue v = true → i + 1 < args.length) →
      Parse args ≠ none ∧
      (∀ msg, Parse args = some (Except.error msg) →
        ∃ i v w, args.get? i = some v ∧ v = "-t" ∧ args.get? (i + 1) = some w ∧
          goAtoi w = none)) := by
  constructor
  · intro args hlast hvalid
    exact parseLoop_panic args defaultParameters hlast hvalid
  · intro args hcond
    exact parseLoop_no_panic args defaultParameters hcond

theorem claim_C10_witness :
    ((∃ lastOpt, (["-m"] : List String).getLast? = some lastOpt ∧
        needsValue lastOpt = true) ∧
      Parse ["-m"] = none) ∧
    (Parse ["-t", "500", "-l", "1,2"] ≠ none) := by
  have hlast : ∃ lastOpt, (["-m"] : List String).getLast? = some lastOpt ∧
      needsValue lastOpt = true := ⟨"-m", rfl, by decide⟩
  have hvalid : ∀ i v w, (["-m"] : List String).get? i = some v → v = "-t" →
      (["-m"] : List String).get? (i + 1) = some w → goAtoi w ≠ none := by
    intro i v w hiv hv _
    subst hv
    match i, hiv with
    | 0, hiv => simp at hiv
  have hcond : ∀ i v, (["-t", "500", "-l", "1,2"] : List String).get? i = some v →
      needsValue v = true → i + 1 < (["-t", "500", "-l", "1,2"] : List String).length := by
    intro i v hiv hv
    match i, hiv with
    | 0, _ => simp
    | 1, hiv2 =>
        have h5 : "500" = v := by simpa using hiv2
        subst h5
        simp [needsValue] at hv
    | 2, _ => simp
    | 3, hiv2 =>
        have h5 : "1,2" = v := by simpa using hiv2
        subst h5
        simp [needsValue] at hv
  exact ⟨⟨hlast, claim_C10_amended.1 ["-m"] hlast hvalid⟩,
    (claim_C10_amended.2 ["-t", "500", "-l", "1,2"] hcond).1⟩
